import Mathlib

set_option maxHeartbeats 1000000

/- Verification of the workflow execution engine of this repository:
a shallow embedding of backend/workflows/execution_engine.py,
backend/workflows/expression_evaluator.py and the data/output node executors,
together with proofs about the embedded definitions. -/

namespace Workflow

/-- Python/JSON-like runtime values. Python dicts are modelled as
insertion-ordered association lists (the dict operations below keep keys
unique, as Python dicts do). Python floats are modelled as exact rationals;
nothing proved here depends on IEEE rounding. -/
inductive Value where
  | null : Value
  | bool : Bool → Value
  | int : Int → Value
  | num : Rat → Value
  | str : String → Value
  | list : List Value → Value
  | dict : List (String × Value) → Value
deriving Repr, Inhabited

/-- Python `d.get(k)`: the binding for the key, if any (keys are unique by
construction, so the first binding is the binding). -/
def dget {α : Type} (l : List (String × α)) (k : String) : Option α :=
  match l.find? (fun p => p.1 == k) with
  | some p => some p.2
  | none => none

/-- Python `d[k] = v`: replace the value at an existing key in place,
else append the new binding at the end (dict insertion order). -/
def dset {α : Type} (l : List (String × α)) (k : String) (v : α) :
    List (String × α) :=
  if l.any (fun p => p.1 == k) then
    l.map (fun p => if p.1 == k then (k, v) else p)
  else l ++ [(k, v)]

/-- Python `d.update(m)`: fold the bindings of `m` into `d`. -/
def dictUpdate (l m : List (String × Value)) : List (String × Value) :=
  m.foldl (fun acc p => dset acc p.1 p.2) l

/-- Python truthiness of a value. -/
def Value.truthy : Value → Bool
  | .null => false
  | .bool b => b
  | .int n => n != 0
  | .num q => q != 0
  | .str s => s != ""
  | .list xs => !xs.isEmpty
  | .dict kvs => !kvs.isEmpty

/-- Formatting of a Python float whose value is an integer (`str(2.0)` is
`"2.0"`). Non-integral floats use the raw rational rendering; Python's
shortest-roundtrip float formatting is not modelled (no proof below
evaluates it on a non-integral number). -/
def ratStr (q : Rat) : String :=
  if q.den = 1 then toString q.num ++ ".0" else toString q

/-- Escape a string body for Python repr with the given quote character. -/
def pyEscape (quote : Char) (s : String) : String :=
  String.mk (s.data.foldr (fun c acc =>
    if c = '\\' then '\\' :: '\\' :: acc
    else if c = quote then '\\' :: c :: acc
    else if c = '\n' then '\\' :: 'n' :: acc
    else if c = '\t' then '\\' :: 't' :: acc
    else if c = '\r' then '\\' :: 'r' :: acc
    else c :: acc) [])

/-- Python repr of a string: single quotes unless the string contains a
single quote and no double quote. -/
def pyStrQuote (s : String) : String :=
  if s.contains '\'' && !(s.contains '"') then
    "\"" ++ pyEscape '"' s ++ "\""
  else "'" ++ pyEscape '\'' s ++ "'"

mutual

/-- Python repr() of a value. -/
def pyrepr : Value → String
  | .null => "None"
  | .bool b => if b then "True" else "False"
  | .int n => toString n
  | .num q => ratStr q
  | .str s => pyStrQuote s
  | .list xs => "[" ++ String.intercalate ", " (pyreprList xs) ++ "]"
  | .dict kvs => "\x7b" ++ String.intercalate ", " (pyreprDict kvs) ++ "\x7d"

def pyreprList : List Value → List String
  | [] => []
  | v :: vs => pyrepr v :: pyreprList vs

def pyreprDict : List (String × Value) → List String
  | [] => []
  | (k, v) :: kvs => (pyStrQuote k ++ ": " ++ pyrepr v) :: pyreprDict kvs

end

/-- Python str() of a value (containers fall back to repr, as in Python). -/
def pystr : Value → String
  | .null => "None"
  | .bool b => if b then "True" else "False"
  | .int n => toString n
  | .num q => ratStr q
  | .str s => s
  | .list xs => pyrepr (.list xs)
  | .dict kvs => pyrepr (.dict kvs)

/-- Numeric value of a run of decimal digit characters. -/
def digitsVal (ds : List Char) : Nat :=
  ds.foldl (fun a c => a * 10 + (c.toNat - Char.toNat '0')) 0

/-- Python str.strip() (whitespace from both ends). -/
def pyStrip (s : String) : String :=
  String.mk
    (((s.data.dropWhile Char.isWhitespace).reverse.dropWhile
      Char.isWhitespace).reverse)

/-- Python s.startswith(pre). -/
def startsWithL (s pre : String) : Bool :=
  pre.data.isPrefixOf s.data

/-- A nonempty all-digit run, as a number. -/
def digitsToNat? (ds : List Char) : Option Nat :=
  if ds.isEmpty || !ds.all Char.isDigit then none else some (digitsVal ds)

/-- Exponent part of a float literal: optional sign then a nonempty digit
run ending the string. -/
def parseExpPart (mant : Rat) (cs : List Char) : Option Rat :=
  let (neg, cs1) :=
    match cs with
    | '-' :: r => (true, r)
    | '+' :: r => (false, r)
    | _ => (false, cs)
  let ds := cs1.takeWhile Char.isDigit
  if ds.isEmpty || !(cs1.dropWhile Char.isDigit).isEmpty then none
  else some (if neg then mant / (10 : Rat) ^ digitsVal ds
             else mant * (10 : Rat) ^ digitsVal ds)

/-- Parse a Python float literal: optional sign, digits with optional
fractional part and optional exponent; surrounding whitespace is stripped
(as Python float() does). The inf/nan/underscore forms are not modelled. -/
def parseFloat? (s : String) : Option Rat :=
  let cs0 := (pyStrip s).data
  let (sgn, cs) :=
    match cs0 with
    | '-' :: r => ((-1 : Rat), r)
    | '+' :: r => ((1 : Rat), r)
    | _ => ((1 : Rat), cs0)
  let intPart := cs.takeWhile Char.isDigit
  let cs1 := cs.dropWhile Char.isDigit
  let (fracPart, cs2) :=
    match cs1 with
    | '.' :: r => (r.takeWhile Char.isDigit, r.dropWhile Char.isDigit)
    | _ => (([] : List Char), cs1)
  if intPart.isEmpty && fracPart.isEmpty then none
  else
    let mant : Rat := sgn * ((digitsVal intPart : Rat) +
      (digitsVal fracPart : Rat) / (10 : Rat) ^ fracPart.length)
    match cs2 with
    | [] => some mant
    | 'e' :: r => parseExpPart mant r
    | 'E' :: r => parseExpPart mant r
    | _ => none

/-- Python float(x) conversion; `none` models a raised TypeError/ValueError
(note that `bool` is an `int` subtype in Python, and numeric strings
convert). -/
def pyFloat? : Value → Option Rat
  | .int n => some (n : Rat)
  | .num q => some q
  | .bool b => some (if b then 1 else 0)
  | .str s => parseFloat? s
  | _ => none

/-- Python int(s) on a string: strip whitespace, optional sign, digits
(underscored literals are not modelled). -/
def pyInt? (s : String) : Option Int :=
  match (pyStrip s).data with
  | '-' :: ds => (digitsToNat? ds).map (fun n => -(n : Int))
  | '+' :: ds => (digitsToNat? ds).map (fun n => (n : Int))
  | ds => (digitsToNat? ds).map (fun n => (n : Int))

/-- Substring test on character lists. -/
def hasSubstrList (pat : List Char) : List Char → Bool
  | [] => pat.isEmpty
  | c :: rest => pat.isPrefixOf (c :: rest) || hasSubstrList pat rest

/-- Python `pat in s` substring test. -/
def hasSubstr (s pat : String) : Bool :=
  hasSubstrList pat.data s.data

/-- Replace every (non-overlapping, left-to-right) occurrence of `pat`.
An empty pattern is treated as a no-op (never used with one here). The
fuel is spent one unit per consumed character, so the `s.length` supplied
by pyReplace below never runs out (a match consumes at least one
character). -/
def replaceList (pat rep : List Char) : Nat → List Char → List Char
  | _, [] => []
  | 0, cs => cs
  | fuel + 1, c :: rest =>
      if pat.isPrefixOf (c :: rest) ∧ pat ≠ [] then
        rep ++ replaceList pat rep fuel ((c :: rest).drop pat.length)
      else c :: replaceList pat rep fuel rest

/-- Python s.replace(pat, rep) (all occurrences). -/
def pyReplace (s pat rep : String) : String :=
  String.mk (replaceList pat.data rep.data s.data.length s.data)

/-- Split a character list at every separator character, keeping empty
segments (Python str.split(sep) / re.split semantics). -/
def splitOnPredList (p : Char → Bool) : List Char → List (List Char)
  | [] => [[]]
  | c :: rest =>
      let r := splitOnPredList p rest
      if p c then [] :: r
      else
        match r with
        | [] => [[c]]
        | h :: t => (c :: h) :: t

/-- Python s.split(sep) for a one-character separator. -/
def pySplitChar (s : String) (sep : Char) : List String :=
  (splitOnPredList (fun c => c == sep) s.data).map String.mk

/-- Python s.lower() (ASCII; the claims only use ASCII data). -/
def pyLower (s : String) : String :=
  String.mk (s.data.map Char.toLower)

/-- Character membership in a string (Python `c in s`, used for the
operator-character tests; defined over the character list so that proofs
can compute it). -/
def strContains (s : String) (c : Char) : Bool :=
  s.data.contains c

def Value.isNull : Value → Bool
  | .null => true
  | _ => false

/- ===== Expression evaluator =====
backend/workflows/expression_evaluator.py. The evaluator object's context
dict (node_results, json, $vars, read in __init__) is modelled as a
structure. -/

/-- The evaluation context handed to ExpressionEvaluator. -/
structure EvalContext where
  nodeResults : List (String × Value)
  jsonData : Value
  vars : Value

/-- The quote characters stripped by `p.strip('"\'')`. -/
def isQuoteChar (c : Char) : Bool :=
  c == '"' || c == '\''

/-- Python str.strip with the quote-character set: remove them from both
ends. -/
def stripQuotes (cs : List Char) : List Char :=
  ((cs.dropWhile isQuoteChar).reverse.dropWhile isQuoteChar).reverse

/-- `re.split(r'\.|\[|\]', path)`, drop empty segments, then strip quote
characters from each remaining segment
(ExpressionEvaluator._get_nested_value, first half). -/
def pathParts (path : String) : List String :=
  ((splitOnPredList (fun c => c == '.' || c == '[' || c == ']') path.data).filter
    (fun p => !p.isEmpty)).map (fun p => String.mk (stripQuotes p))

/-- The walk of ExpressionEvaluator._get_nested_value: mapping lookup,
in-bounds list indexing by a parsed integer, anything else (or a missing
key, or a stored None) stops the walk yielding None. -/
def walkParts : Value → List String → Value
  | cur, [] => cur
  | cur, part :: rest =>
      if part = "" then walkParts cur rest
      else
        match cur with
        | .dict kvs =>
            match dget kvs part with
            | none => .null
            | some v => if v.isNull then .null else walkParts v rest
        | .list xs =>
            match pyInt? part with
            | none => .null
            | some i =>
                if 0 ≤ i && i < (xs.length : Int) then
                  let v := xs.getD i.toNat .null
                  if v.isNull then .null else walkParts v rest
                else .null
        | _ => .null

/-- ExpressionEvaluator._get_nested_value. -/
def getNestedValue (obj : Value) (path : String) : Value :=
  if path = "" then obj else walkParts obj (pathParts path)

/-- `re.sub(r'^\$?json\.?', '', path)`: optional dollar, the literal
`json`, an optional dot; a non-matching path is left unchanged. -/
def stripJsonPrefix (path : String) : String :=
  let p1 := if startsWithL path "$" then path.drop 1 else path
  if startsWithL p1 "json" then
    let p2 := p1.drop 4
    if startsWithL p2 "." then p2.drop 1 else p2
  else path

/-- ExpressionEvaluator._evaluate_json_path. -/
def evaluateJsonPath (ctx : EvalContext) (path : String) : Value :=
  let p := stripJsonPrefix path
  if p = "" then ctx.jsonData else getNestedValue ctx.jsonData p

/-- `re.sub(r'^\$vars\.?', '', path)`. -/
def stripVarsPrefix (path : String) : String :=
  if startsWithL path "$vars" then
    let p := path.drop 5
    if startsWithL p "." then p.drop 1 else p
  else path

/-- ExpressionEvaluator._evaluate_vars_path. -/
def evaluateVarsPath (ctx : EvalContext) (path : String) : Value :=
  let p := stripVarsPrefix path
  if p = "" then ctx.vars else getNestedValue ctx.vars p

/-- ExpressionEvaluator._get_node_output: fetch a node's recorded result
(a falsy result counts as absent), unwrap a `main` key when the result is
a mapping containing one, then apply the remaining path (a None or empty
path is falsy and skipped). -/
def getNodeOutput (ctx : EvalContext) (nodeId : String) (path : Option String) :
    Value :=
  let nodeResult := (dget ctx.nodeResults nodeId).getD .null
  if !nodeResult.truthy then .null
  else
    let data :=
      match nodeResult with
      | .dict kvs =>
          match dget kvs "main" with
          | some m => m
          | none => nodeResult
      | _ => nodeResult
    match path with
    | some p => if p ≠ "" then getNestedValue data p else data
    | none => data

/-- The character class `[a-zA-Z0-9_\.\[\]]` of the `$json`-reference
regexes in _evaluate_javascript. -/
def refChar (c : Char) : Bool :=
  c.isAlpha || c.isDigit || c == '_' || c == '.' || c == '[' || c == ']'

/-- One pass of `re.sub(lit ++ ref-run, repr(json-path value), expr)`:
scan left to right; at a match, substitute the repr of the evaluated
`json.<run>` path and continue after the match (replacements are not
rescanned, as with re.sub). `l0 :: lrest` is the literal part of the
pattern (`$json.` or `json.`). -/
def subJsonRefsAux (ctx : EvalContext) (l0 : Char) (lrest : List Char) :
    Nat → List Char → List Char
  | _, [] => []
  | 0, cs => cs
  | fuel + 1, c :: rest =>
      if (l0 :: lrest).isPrefixOf (c :: rest) then
        let after := (c :: rest).drop (l0 :: lrest).length
        let run := after.takeWhile refChar
        if run.isEmpty then c :: subJsonRefsAux ctx l0 lrest fuel rest
        else
          (pyrepr (evaluateJsonPath ctx ("json." ++ String.mk run))).data
            ++ subJsonRefsAux ctx l0 lrest fuel (after.dropWhile refChar)
      else c :: subJsonRefsAux ctx l0 lrest fuel rest

/-- The two reference substitutions at the top of
ExpressionEvaluator._evaluate_javascript (`$json.…` first, then bare
`json.…`, the second pass scanning the output of the first). The fuel
(spent one unit per consumed character, with every step consuming at least
one) is the input length, which therefore never runs out. -/
def substituteJsonRefs (ctx : EvalContext) (s : String) : String :=
  let pass1 := String.mk
    (subJsonRefsAux ctx '$' "json.".data s.data.length s.data)
  String.mk (subJsonRefsAux ctx 'j' "son.".data pass1.data.length pass1.data)

/-- `any(op in expr for op in ['+', '-', '*', '/', '(', ')', '[', ']'])`. -/
def hasOpChar (s : String) : Bool :=
  strContains s '+' || strContains s '-' || strContains s '*' ||
  strContains s '/' || strContains s '(' || strContains s ')' ||
  strContains s '[' || strContains s ']'

/-- `isinstance(v, (int, float))` — bool is an int subtype in Python. -/
def pyIsNumber : Value → Bool
  | .int _ => true
  | .num _ => true
  | .bool _ => true
  | _ => false

/-- `float(v) if isinstance(v, (int, float)) else 0`. -/
def numOrZero : Value → Rat
  | .int n => (n : Rat)
  | .num q => q
  | .bool b => if b then 1 else 0
  | _ => 0

/-- ExpressionEvaluator._evaluate_path. -/
def evaluatePath (ctx : EvalContext) (path : String) : Value :=
  if startsWithL path "json" || startsWithL path "$json" then
    evaluateJsonPath ctx path
  else if startsWithL path "$vars" then evaluateVarsPath ctx path
  else getNestedValue ctx.jsonData path

/-- ExpressionEvaluator._evaluate_expression, parameterized by the
_evaluate_javascript continuation `js` (tied by evaluateExpression and
evaluateJavascript below). The `$json.<nodeId>` branch (third below) is
unreachable in the source: the first branch already catches every
expression starting with `$json`; it is embedded faithfully
nonetheless. -/
def exprStep (ctx : EvalContext) (js : String → Value) (e : String) : Value :=
  let expr := pyStrip e
  if startsWithL expr "$json" || startsWithL expr "json" then
    evaluateJsonPath ctx expr
  else if startsWithL expr "$vars" then evaluateVarsPath ctx expr
  else if startsWithL expr "$json." && strContains (expr.drop 6) '.' &&
      (pySplitChar expr '.').length ≥ 2 then
    let parts := pySplitChar expr '.'
    let nodeId := parts.getD 1 ""
    let path := if parts.length > 2 then
        some (String.intercalate "." (parts.drop 2)) else none
    getNodeOutput ctx nodeId path
  else if hasOpChar expr then js expr
  else evaluatePath ctx expr

/-- ExpressionEvaluator._evaluate_javascript: substitute `$json`/`json`
references by the repr of their values, then split on the first operator
found among `+ - * /` (in that priority order, each splitting on every
occurrence), recursively evaluate the parts, and combine numerically; a
failed float() conversion is caught by the except-handler, which returns
the substituted expression string. `fuel` bounds the recursion depth,
mirroring Python's recursion limit (a RecursionError is caught by this
function's own exception handler, which returns the substituted
expression string — exactly what fuel exhaustion returns). The final
`eval(expr, no builtins)` branch (an expression with brackets but no
arithmetic operator) is modelled for numeric literals only; other inputs
take the exception path. No claim exercises that last branch. -/
def evaluateJavascript (ctx : EvalContext) : Nat → String → Value
  | 0, e => .str (substituteJsonRefs ctx e)
  | fuel + 1, e =>
      let expr := substituteJsonRefs ctx e
      if strContains expr '+' then
        let values := (pySplitChar expr '+').map
          (fun p => exprStep ctx (evaluateJavascript ctx fuel) (pyStrip p))
        if values.any pyIsNumber then .num ((values.map numOrZero).sum)
        else .int 0
      else if strContains expr '-' then
        let values := (pySplitChar expr '-').map
          (fun p => exprStep ctx (evaluateJavascript ctx fuel) (pyStrip p))
        match values with
        | [] => .str expr
        | v0 :: rest =>
            match pyFloat? v0 with
            | none => .str expr
            | some x => .num (x - (rest.map numOrZero).sum)
      else if strContains expr '*' then
        let values := (pySplitChar expr '*').map
          (fun p => exprStep ctx (evaluateJavascript ctx fuel) (pyStrip p))
        if values.any pyIsNumber then .num ((values.map numOrZero).prod)
        else .int (if values.isEmpty then 1 else 0)
      else if strContains expr '/' then
        let values := (pySplitChar expr '/').map
          (fun p => exprStep ctx (evaluateJavascript ctx fuel) (pyStrip p))
        match values with
        | v0 :: v1 :: _ =>
            match pyFloat? v1 with
            | none => .str expr
            | some d =>
                if d ≠ 0 then
                  match pyFloat? v0 with
                  | none => .str expr
                  | some n => .num (n / d)
                else .int 0
        | _ => .int 0
      else
        match pyInt? expr with
        | some n => .int n
        | none =>
            match parseFloat? expr with
            | some q => .num q
            | none => .str expr

/-- ExpressionEvaluator._evaluate_expression. -/
def evaluateExpression (ctx : EvalContext) (fuel : Nat) (e : String) : Value :=
  exprStep ctx (evaluateJavascript ctx fuel) e

/-- Body scan of the template regex `\$\x7b\x7b([^\x7d]+)\x7d\x7d`:
accumulate at least one non-brace character, then require two closing
braces (a single closing brace fails the match — shrinking the greedy run
cannot save it, since every run character is a non-brace). -/
def grabTemplateBody (acc : List Char) : List Char → Option (String × List Char)
  | [] => none
  | c :: rest =>
      if c = '}' then
        match rest with
        | c2 :: rest2 =>
            if c2 = '}' then
              if acc.isEmpty then none else some (String.mk acc.reverse, rest2)
            else none
        | [] => none
      else grabTemplateBody (c :: acc) rest

/-- `re.findall(r'\$\x7b\x7b([^\x7d]+)\x7d\x7d', s)`: scan left to right;
on a successful match continue after it (a match consumes at least four
characters, so the input-length fuel spent one unit per step never runs
out), otherwise advance one character. -/
def findTemplatesAux : Nat → List Char → List String
  | _, [] => []
  | 0, _ => []
  | fuel + 1, c :: cs =>
      if ("$\x7b\x7b".data).isPrefixOf (c :: cs) then
        match grabTemplateBody [] (cs.drop 2) with
        | some (body, rest') => body :: findTemplatesAux fuel rest'
        | none => findTemplatesAux fuel cs
      else findTemplatesAux fuel cs

def findTemplates (s : String) : List String :=
  findTemplatesAux s.data.length s.data

/- ===== json.loads =====
A strict JSON parser, used only by the final parse-attempt of
ExpressionEvaluator.evaluate. \uXXXX escapes are not modelled (treated as
a parse failure, which the caller turns back into the plain string). -/

def jsonWs (cs : List Char) : List Char :=
  cs.dropWhile (fun c => c == ' ' || c == '\t' || c == '\n' || c == '\r')

/-- JSON string body after the opening quote. -/
def jsonStrAux (acc : List Char) : List Char → Option (String × List Char)
  | [] => none
  | c :: rest =>
      if c = '"' then some (String.mk acc.reverse, rest)
      else if c = '\\' then
        match rest with
        | [] => none
        | e :: rest2 =>
            let dec : Option Char :=
              if e = '"' then some '"'
              else if e = '\\' then some '\\'
              else if e = '/' then some '/'
              else if e = 'n' then some '\n'
              else if e = 't' then some '\t'
              else if e = 'r' then some '\r'
              else if e = 'b' then some (Char.ofNat 8)
              else if e = 'f' then some (Char.ofNat 12)
              else none
            match dec with
            | some d => jsonStrAux (d :: acc) rest2
            | none => none
      else jsonStrAux (c :: acc) rest
termination_by cs => cs.length
decreasing_by
  · simp only [List.length_cons]; omega
  · simp

/-- JSON number: optional minus, digits, optional fraction, optional
exponent; an integer literal yields an int (as json.loads does). -/
def jsonNum (cs : List Char) : Option (Value × List Char) :=
  let (neg, cs1) :=
    match cs with
    | '-' :: r => (true, r)
    | _ => (false, cs)
  let intPart := cs1.takeWhile Char.isDigit
  if intPart.isEmpty then none
  else
    let cs2 := cs1.dropWhile Char.isDigit
    let (fracPart, cs3) :=
      match cs2 with
      | '.' :: r =>
          let f := r.takeWhile Char.isDigit
          if f.isEmpty then (none, cs2) else (some f, r.dropWhile Char.isDigit)
      | _ => ((none : Option (List Char)), cs2)
    let (expPart, cs4) :=
      match cs3 with
      | 'e' :: r => (some r, r)
      | 'E' :: r => (some r, r)
      | _ => ((none : Option (List Char)), cs3)
    match expPart with
    | none =>
        let mag : Rat := (digitsVal intPart : Rat) +
          ((digitsVal (fracPart.getD [])) : Rat) /
            (10 : Rat) ^ (fracPart.getD []).length
        match fracPart with
        | none => some (.int (if neg then -(digitsVal intPart : Int)
                              else (digitsVal intPart : Int)), cs4)
        | some _ => some (.num (if neg then -mag else mag), cs4)
    | some r =>
        let (eneg, r1) :=
          match r with
          | '-' :: rr => (true, rr)
          | '+' :: rr => (false, rr)
          | _ => (false, r)
        let eds := r1.takeWhile Char.isDigit
        if eds.isEmpty then none
        else
          let mag : Rat := (digitsVal intPart : Rat) +
            ((digitsVal (fracPart.getD [])) : Rat) /
              (10 : Rat) ^ (fracPart.getD []).length
          let mag2 := if eneg then mag / (10 : Rat) ^ digitsVal eds
                      else mag * (10 : Rat) ^ digitsVal eds
          some (.num (if neg then -mag2 else mag2), r1.dropWhile Char.isDigit)

mutual

/-- One JSON value. `fuel` strictly decreases on every recursive call; the
top-level entry supplies fuel linear in the input length, which suffices
because every recursive step first consumes at least one input
character. -/
def jsonVal : Nat → List Char → Option (Value × List Char)
  | 0, _ => none
  | fuel + 1, cs =>
      match jsonWs cs with
      | [] => none
      | c :: rest =>
          if c = '"' then
            match jsonStrAux [] rest with
            | some (s, r) => some (.str s, r)
            | none => none
          else if c = '[' then
            match jsonWs rest with
            | ']' :: r => some (.list [], r)
            | other => jsonItems fuel other []
          else if c = '{' then
            match jsonWs rest with
            | '}' :: r => some (.dict [], r)
            | other => jsonMembers fuel other []
          else if ('t' :: 'r' :: 'u' :: 'e' :: []).isPrefixOf (c :: rest) then
            some (.bool true, rest.drop 3)
          else if ('f' :: 'a' :: 'l' :: 's' :: 'e' :: []).isPrefixOf (c :: rest) then
            some (.bool false, rest.drop 4)
          else if ('n' :: 'u' :: 'l' :: 'l' :: []).isPrefixOf (c :: rest) then
            some (.null, rest.drop 3)
          else jsonNum (c :: rest)

/-- Comma-separated array items (called on a nonempty first item). -/
def jsonItems (fuel : Nat) (cs : List Char) (acc : List Value) :
    Option (Value × List Char) :=
  match fuel with
  | 0 => none
  | fuel + 1 =>
      match jsonVal fuel cs with
      | none => none
      | some (v, r) =>
          match jsonWs r with
          | ',' :: r2 => jsonItems fuel r2 (v :: acc)
          | ']' :: r2 => some (.list (v :: acc).reverse, r2)
          | _ => none

/-- Comma-separated object members (called on a nonempty first member). -/
def jsonMembers (fuel : Nat) (cs : List Char) (acc : List (String × Value)) :
    Option (Value × List Char) :=
  match fuel with
  | 0 => none
  | fuel + 1 =>
      match jsonWs cs with
      | c :: rest =>
          if c = '"' then
            match jsonStrAux [] rest with
            | some (k, r) =>
                match jsonWs r with
                | ':' :: r2 =>
                    match jsonVal fuel r2 with
                    | some (v, r3) =>
                        match jsonWs r3 with
                        | ',' :: r4 => jsonMembers fuel r4 ((k, v) :: acc)
                        | '}' :: r4 => some (.dict ((k, v) :: acc).reverse, r4)
                        | _ => none
                    | none => none
                | _ => none
            | none => none
          else none
      | [] => none

end

/-- json.loads: a full parse of the string (trailing whitespace only). -/
def jsonLoads (s : String) : Option Value :=
  match jsonVal (2 * s.length + 4) s.data with
  | some (v, rest) => if (jsonWs rest).isEmpty then some v else none
  | none => none

/-- The recursion budget used for expression evaluation, standing in for
Python's recursion limit; the expressions of every theorem below evaluate
within a handful of levels. -/
def evalFuel : Nat := 1000

/-- ExpressionEvaluator.evaluate (and the evaluate_expression convenience
wrapper, which likewise passes non-strings through): extract every
template occurrence, evaluate it, substitute its str() back (str.replace
replaces every occurrence), then attempt a JSON parse when the result
starts with a brace or bracket. -/
def evaluate (ctx : EvalContext) (expression : Value) : Value :=
  match expression with
  | .str s =>
      if s = "" then .str s
      else if !(hasSubstr s "$\x7b\x7b") then .str s
      else
        let ms := findTemplates s
        if ms.isEmpty then .str s
        else
          let result := ms.foldl (fun acc m =>
            pyReplace acc ("$\x7b\x7b" ++ m ++ "\x7d\x7d")
              (pystr (evaluateExpression ctx evalFuel (pyStrip m)))) s
          if startsWithL result "\x7b" || startsWithL result "[" then
            match jsonLoads result with
            | some v => v
            | none => .str result
          else .str result
  | v => v

/- ===== Node executors =====
backend/workflows/node_executors/data_nodes.py and output_nodes.py.
Executors may raise NodeExecutionError (or builtin exceptions); both are
modelled as `Except.error`. The wall-clock `timestamp` output field is
threaded in as the `now` argument. -/

/-- Modelled from the spec: `BaseNodeExecutor.get_property` (base.py is not
among the sources here) — "pull a value from the node's property bag,
falling back to the declared default". -/
def getProperty (props : List (String × Value)) (name : String) (dflt : Value) :
    Value :=
  (dget props name).getD dflt

/-- Modelled from the spec: `BaseNodeExecutor.validate_inputs` (base.py is
not among the sources here) — raises a NodeExecutionError for a "missing
required field". -/
def validateInputs (inputs : List (String × Value)) (required : List String) :
    Except String Unit :=
  if required.all (fun k => (dget inputs k).isSome) then .ok ()
  else .error "Missing required input"

/-- Python `a or b`. -/
def pyOr (a b : Value) : Value :=
  if a.truthy then a else b

/-- dict get with default. -/
def dgetD (kvs : List (String × Value)) (k : String) (dflt : Value) : Value :=
  (dget kvs k).getD dflt

/-- Python len(); none models a TypeError. -/
def pyLen? : Value → Option Nat
  | .str s => some s.length
  | .list xs => some xs.length
  | .dict kvs => some kvs.length
  | _ => none

/-- `v == "lit"` comparison of a Python value against a string literal. -/
def isStrVal (v : Value) (s : String) : Bool :=
  match v with
  | .str t => t == s
  | _ => false

/-- DataNodeExecutor._evaluate_filter: compare the lower-cased str() forms
for equals/notEquals/contains; float()-convert both sides for
greaterThan/lessThan, any conversion error yielding False. -/
def evaluateFilter (fieldValue : Value) (op : Value) (expected : Value) : Bool :=
  let fs := pyLower (pystr fieldValue)
  let es := pyLower (pystr expected)
  if isStrVal op "equals" then fs == es
  else if isStrVal op "notEquals" then fs != es
  else if isStrVal op "contains" then hasSubstr fs es
  else if isStrVal op "greaterThan" then
    match pyFloat? fieldValue, pyFloat? expected with
    | some a, some b => decide (a > b)
    | _, _ => false
  else if isStrVal op "lessThan" then
    match pyFloat? fieldValue, pyFloat? expected with
    | some a, some b => decide (a < b)
    | _, _ => false
  else true

/-- DataNodeExecutor._execute_filter. A non-string field property is
modelled as a missing dict key (Python would look up the non-string key,
which the input mapping, keyed by strings here, cannot contain). -/
def executeFilter (props : List (String × Value))
    (inputs : List (String × Value)) : Except String Value := do
  let _ ← validateInputs inputs ["main"]
  let inputData := dgetD inputs "main" (.dict [])
  let field := getProperty props "field" (.str "")
  let operator := getProperty props "operator" (.str "equals")
  let value := getProperty props "value" (.str "")
  if !field.truthy then .error "No field specified for filter"
  else
    match inputData with
    | .dict kvs =>
        let fieldValue :=
          match field with
          | .str f => dgetD kvs f (.str "")
          | _ => .str ""
        let keep := evaluateFilter fieldValue operator value
        if keep then .ok (.dict [("main", inputData)])
        else .ok (.dict [("main", .null)])
    | _ => .error "AttributeError: no attribute get"

/-- JSON string escaping for json.dumps (basic escapes; \\uXXXX escaping of
control and non-ASCII characters is not modelled — no proof evaluates it
on such input). -/
def jsonEscape (s : String) : String :=
  String.mk (s.data.foldr (fun c acc =>
    if c = '\\' then '\\' :: '\\' :: acc
    else if c = '"' then '\\' :: '"' :: acc
    else if c = '\n' then '\\' :: 'n' :: acc
    else if c = '\t' then '\\' :: 't' :: acc
    else if c = '\r' then '\\' :: 'r' :: acc
    else c :: acc) [])

def jsonIndentPad (level : Nat) : String :=
  String.mk (List.replicate (2 * level) ' ')

/-- json.dumps(v, indent=2) at the given nesting level. The fuel bounds the
recursion depth, standing in for Python's recursion limit; exhaustion
(`none`) models the RecursionError that json.dumps raises on a structure
nested deeper than that limit. -/
def jsonDumps : Nat → Nat → Value → Option String
  | 0, _, _ => none
  | fuel + 1, level, v =>
      match v with
      | .null => some "null"
      | .bool b => some (if b then "true" else "false")
      | .int n => some (toString n)
      | .num q => some (ratStr q)
      | .str s => some ("\"" ++ jsonEscape s ++ "\"")
      | .list [] => some "[]"
      | .list (x :: xs) =>
          match (x :: xs).mapM (jsonDumps fuel (level + 1)) with
          | some parts =>
              some ("[\n" ++ String.intercalate ",\n"
                (parts.map (fun p => jsonIndentPad (level + 1) ++ p)) ++
                "\n" ++ jsonIndentPad level ++ "]")
          | none => none
      | .dict [] => some "\x7b\x7d"
      | .dict (kv :: kvs) =>
          match (kv :: kvs).mapM (fun p =>
              (jsonDumps fuel (level + 1) p.2).map (fun t =>
                jsonIndentPad (level + 1) ++ "\"" ++ jsonEscape p.1 ++
                  "\": " ++ t)) with
          | some parts =>
              some ("\x7b\n" ++ String.intercalate ",\n" parts ++
                "\n" ++ jsonIndentPad level ++ "\x7d")
          | none => none

/-- The recursion-limit stand-in for json.dumps. -/
def dumpsFuel : Nat := 1000

/-- The inner loop of _execute_readme_viewer over the input items: a
mapping item re-assigns content to its own field chain (breaking when that
is truthy); a string item longer than the current content replaces it
(len() of a non-sized current content raises a TypeError). -/
def readmeScan : List (String × Value) → Value → Except String Value
  | [], content => .ok content
  | (_, v) :: rest, content =>
      match v with
      | .dict inner =>
          let c := pyOr (dgetD inner "text" (.str ""))
            (pyOr (dgetD inner "content" (.str ""))
              (pyOr (dgetD inner "response" (.str ""))
                (dgetD inner "message" (.str ""))))
          if c.truthy then .ok c else readmeScan rest c
      | .str s =>
          match pyLen? content with
          | none => .error "TypeError: object has no len()"
          | some n =>
              if s.length > n then readmeScan rest (.str s)
              else readmeScan rest content
      | _ => readmeScan rest content

/-- OutputNodeExecutor._execute_readme_viewer. The bare try/except around
json.dumps falls back to str(input_data) when dumps raises (which the
modelled values only do through the recursion limit). -/
def executeReadmeViewer (props : List (String × Value))
    (inputs : List (String × Value)) (now : String) : Except String Value := do
  let configuredContent := getProperty props "content" (.str "work")
  let inputData := dgetD inputs "main" (.dict [])
  let content0 ←
    match inputData with
    | .dict kvs =>
        let c1 := pyOr (dgetD kvs "text" (.str ""))
          (pyOr (dgetD kvs "content" (.str ""))
            (pyOr (dgetD kvs "response" (.str ""))
              (pyOr (dgetD kvs "message" (.str ""))
                (dgetD kvs "output" (.str "")))))
        let c2 ← if !c1.truthy then readmeScan kvs c1 else pure c1
        if !c2.truthy then
          match jsonDumps dumpsFuel 0 inputData with
          | some s => pure (Value.str s)
          | none => pure (Value.str (pystr inputData))
        else pure c2
    | _ => pure (Value.str (pystr inputData))
  let content ←
    if !content0.truthy ||
        (match content0 with
         | .str s => pyStrip s == ""
         | _ => false) then
      if !configuredContent.truthy then pure (Value.str "work")
      else
        match configuredContent with
        | .str s =>
            if pyStrip s ≠ "" then pure configuredContent else pure (Value.str "work")
        | _ => Except.error "AttributeError: no attribute strip"
    else pure content0
  let title := getProperty props "title" (.str "Content Viewer")
  return .dict [("main", .dict [("title", title), ("content", content),
    ("timestamp", .str now), ("type", .str "readme_viewer"),
    ("formatted", .bool true)])]

/- ===== Execution engine =====
backend/workflows/execution_engine.py. -/

/-- The wire shape of a node: `{id, data: {type, properties}}`. -/
structure Node where
  id : String
  type : String
  properties : List (String × Value)
deriving Repr, Inhabited

/-- The wire shape of an edge; absent handles default to "main" at the
point of use, as with dict.get. -/
structure Edge where
  source : String
  target : String
  sourceHandle : Option String := none
  targetHandle : Option String := none
deriving Repr, Inhabited

/-- One entry of ExecutionContext.node_states. The wall-clock bookkeeping
fields (timestamp, startTime, endTime) are not modelled; the merge
semantics of set_node_state for the remaining keys are. -/
structure NodeState where
  status : String
  output : Option Value := none
  input : Option Value := none
  error : Option String := none
deriving Repr, Inhabited

/-- ExecutionContext (the fields the engine reads or writes; wall-clock
times, and the chat_response side channel no claim concerns, are not
modelled). -/
structure ExecCtx where
  workflowId : String
  executionId : String
  nodeResults : List (String × Value)
  nodeStates : List (String × NodeState)
  executionOrder : List String
  errors : List (String × String)
  status : String
  triggerData : Value
  credentials : List (String × Value)
deriving Repr, Inhabited

/-- ExecutionContext.set_node_state: merge the keyword arguments over the
existing state record, overwriting the status. -/
def setNodeState (ctx : ExecCtx) (nodeId : String) (status : String)
    (output input : Option Value) (error : Option String) : ExecCtx :=
  let existing := (dget ctx.nodeStates nodeId).getD
    { status := "", output := none, input := none, error := none }
  let st : NodeState :=
    { status := status
      output := output <|> existing.output
      input := input <|> existing.input
      error := error <|> existing.error }
  { ctx with nodeStates := dset ctx.nodeStates nodeId st }

/-- ExecutionContext.set_node_error. -/
def setNodeError (ctx : ExecCtx) (nodeId : String) (msg : String) : ExecCtx :=
  setNodeState { ctx with errors := dset ctx.errors nodeId msg }
    nodeId "error" none none (some msg)

/-- ExecutionContext.set_node_result. -/
def setNodeResult (ctx : ExecCtx) (nodeId : String) (result : Value) : ExecCtx :=
  { ctx with nodeResults := dset ctx.nodeResults nodeId result }

/-- Result normalization at the end of execute_node: a non-mapping, or a
mapping without a `main` key, is wrapped under `main`. -/
def normalizeResult (r : Value) : Value :=
  match r with
  | .dict kvs => if (dget kvs "main").isSome then r else .dict [("main", r)]
  | _ => .dict [("main", r)]

/-- WorkflowExecutionEngine._get_node_inputs, collection loop over the
edges: skip edges whose source has no (or a falsy) recorded result, select
the source-handle entry of the result when present, and route the payload
to the `main` accumulation list or to the named target handle. -/
def collectInputs (nodeId : String) (results : List (String × Value)) :
    List Edge → List (String × Value) → List (String × Value) →
      List (String × Value) × List (String × Value)
  | [], inputs, mains => (inputs, mains)
  | e :: rest, inputs, mains =>
      if e.target == nodeId then
        let sourceOutput := e.sourceHandle.getD "main"
        let targetInput := e.targetHandle.getD "main"
        let sourceResult := (dget results e.source).getD .null
        if !sourceResult.truthy then
          collectInputs nodeId results rest inputs mains
        else
          let outputData :=
            match sourceResult with
            | .dict kvs =>
                match dget kvs sourceOutput with
                | some v => v
                | none => sourceResult
            | _ => sourceResult
          if targetInput == "main" then
            collectInputs nodeId results rest (dset inputs e.source outputData)
              (mains ++ [(e.source, outputData)])
          else
            collectInputs nodeId results rest (dset inputs targetInput outputData)
              mains
      else collectInputs nodeId results rest inputs mains

/-- WorkflowExecutionEngine._get_node_inputs: merge multiple `main`
payloads (mapping payloads shallow-merged in edge order, later edges
overwriting; non-mapping payloads keyed by source id), pass a single
`main` payload through unchanged, and duplicate `main` under `json`. -/
def getNodeInputs (nodeId : String) (edges : List Edge)
    (results : List (String × Value)) : List (String × Value) :=
  let st := collectInputs nodeId results edges [] []
  let inputs := st.1
  let mains := st.2
  let inputs :=
    if mains.length > 1 then
      let merged := mains.foldl (fun acc p =>
        match p.2 with
        | .dict kvs => dictUpdate acc kvs
        | _ => dset acc p.1 p.2) []
      dset inputs "main" (.dict merged)
    else if mains.length == 1 then
      dset inputs "main" ((mains.headD ("", .null)).2)
    else inputs
  match dget inputs "main" with
  | some m => dset inputs "json" m
  | none => inputs

/-- The `$vars` record built by execute_node for expression evaluation. -/
def mkVars (ctx : ExecCtx) : Value :=
  .dict [("$execution", .dict [("id", .str ctx.executionId),
          ("mode", .str "test")]),
         ("$workflow", .dict [("id", .str ctx.workflowId),
          ("name", .str "Workflow")])]

/-- The exec_context dict passed to the node executor. -/
def mkExecSnapshot (ctx : ExecCtx) (inputs : List (String × Value)) : Value :=
  .dict [("execution_id", .str ctx.executionId),
         ("workflow_id", .str ctx.workflowId),
         ("trigger_data", ctx.triggerData),
         ("openai_api_key", (dget ctx.credentials "openai_api_key").getD .null),
         ("anthropic_api_key", (dget ctx.credentials "anthropic_api_key").getD .null),
         ("google_api_key", (dget ctx.credentials "google_api_key").getD .null),
         ("groq_api_key", (dget ctx.credentials "groq_api_key").getD .null),
         ("node_results", .dict ctx.nodeResults),
         ("json", dgetD inputs "main" (.dict []))]

/-- The behaviour of `_get_node_executor(node)` followed by
`executor.execute(inputs, exec_context)`, abstracted as a parameter: it
receives the node (with its expression-evaluated properties), the resolved
inputs dict and the exec_context dict, and either returns a value or
raises. The claims proved below quantify over it. -/
def NodeExec : Type :=
  Node → List (String × Value) → Value → Except String Value

/-- WorkflowExecutionEngine.execute_node: mark running, gather inputs,
evaluate `$\x7b\x7b`-bearing string properties (failures there are caught
and non-fatal; the modelled evaluator is total), run the executor,
normalize and record the result, mark completed and append to the
execution order — or, on an executor exception, record the error and
re-raise. -/
def executeNode (exec : NodeExec) (node : Node) (edges : List Edge)
    (ctx : ExecCtx) : ExecCtx × Except String Value :=
  let ctx1 := setNodeState ctx node.id "running" none none none
  let inputs := getNodeInputs node.id edges ctx1.nodeResults
  let evalCtx : EvalContext :=
    { nodeResults := ctx1.nodeResults
      jsonData := dgetD inputs "main" (.dict [])
      vars := mkVars ctx1 }
  let props := node.properties.map (fun kv =>
    match kv.2 with
    | .str s => if hasSubstr s "$\x7b\x7b" then (kv.1, evaluate evalCtx (.str s))
                else kv
    | _ => kv)
  let node2 : Node := { node with properties := props }
  match exec node2 inputs (mkExecSnapshot ctx1 inputs) with
  | .error e => (setNodeError ctx1 node.id e, .error e)
  | .ok r =>
      let result := normalizeResult r
      let ctx2 := setNodeResult ctx1 node.id result
      let ctx3 := setNodeState ctx2 node.id "completed" (some result)
        (some (.dict inputs)) none
      let ctx4 := { ctx3 with executionOrder := ctx3.executionOrder ++ [node.id] }
      (ctx4, .ok result)

/- ===== Topological sort ===== -/

/-- Key list of a dict comprehension over the node list: first occurrence
order, duplicates collapsed (`seen` accumulates the keys already kept). -/
def dedupFirstAux (seen : List String) : List String → List String
  | [] => []
  | x :: xs =>
      if seen.contains x then dedupFirstAux seen xs
      else x :: dedupFirstAux (x :: seen) xs

def dedupFirst (l : List String) : List String :=
  dedupFirstAux [] l

/-- `in_degree = {node['id']: 0 for node in nodes}`. -/
def initZero (ids : List String) : List (String × Int) :=
  (dedupFirst ids).map (fun id => (id, 0))

/-- `adjacency = {node['id']: [] for node in nodes}`. -/
def initAdj (ids : List String) : List (String × List String) :=
  (dedupFirst ids).map (fun id => (id, []))

/-- `in_degree[target] += 1`; none models the KeyError on an unknown id. -/
def bumpDeg : List (String × Int) → String → Option (List (String × Int))
  | [], _ => none
  | (k, d) :: rest, t =>
      if k == t then some ((k, d + 1) :: rest)
      else (bumpDeg rest t).map (fun r => (k, d) :: r)

/-- `adjacency[source].append(target)`; none models the KeyError. -/
def pushAdj : List (String × List String) → String → String →
    Option (List (String × List String))
  | [], _, _ => none
  | (k, vs) :: rest, s, t =>
      if k == s then some ((k, vs ++ [t]) :: rest)
      else (pushAdj rest s t).map (fun r => (k, vs) :: r)

/-- The edge loop of _topological_sort building adjacency and in-degree. -/
def buildMaps : List (String × String) → List (String × Int) →
    List (String × List String) →
      Option (List (String × Int) × List (String × List String))
  | [], d, a => some (d, a)
  | (s, t) :: es, d, a =>
      match pushAdj a s t with
      | none => none
      | some a2 =>
          match bumpDeg d t with
          | none => none
          | some d2 => buildMaps es d2 a2

/-- `in_degree[neighbor] -= 1` (the key is always present when reached
from a successfully built graph; an absent key leaves the map unchanged
where Python would raise, and the loop below then also enqueues nothing). -/
def decrDeg : List (String × Int) → String → List (String × Int)
  | [], _ => []
  | (k, d) :: rest, t =>
      if k == t then (k, d - 1) :: rest else (k, d) :: decrDeg rest t

/-- The inner for-loop of the Kahn while-loop: decrement each adjacency
target of the dequeued node, enqueueing any that reach exactly zero. -/
def processNeighbors : List (String × Int) → List String → List String →
    List (String × Int) × List String
  | inDeg, queue, [] => (inDeg, queue)
  | inDeg, queue, n :: ns =>
      let d2 := decrDeg inDeg n
      let q2 := if dget d2 n == some 0 then queue ++ [n] else queue
      processNeighbors d2 q2 ns

/-- The Kahn while-loop, with explicit fuel. The fuel supplied by
topologicalSort exceeds the loop measure (queue length plus the sum of the
positive in-degrees, which strictly decreases each iteration), so the
queue always drains before the fuel runs out — theorem kahnRun_drains
below. -/
def kahnRun (adj : List (String × List String)) :
    Nat → List String → List (String × Int) → List String →
      List String × List String
  | 0, q, _, order => (order, q)
  | _ + 1, [], _, order => (order, [])
  | fuel + 1, c :: rest, inDeg, order =>
      let st := processNeighbors inDeg rest ((dget adj c).getD [])
      kahnRun adj fuel st.2 st.1 (order ++ [c])

/-- WorkflowExecutionEngine._topological_sort. A raised KeyError (an edge
endpoint that is no node id) and the raised cycle ValueError are both
modelled as errors; execute_workflow catches either kind. -/
def topologicalSort (ids : List String) (edges : List (String × String)) :
    Except String (List String) :=
  match buildMaps edges (initZero ids) (initAdj ids) with
  | none => .error "KeyError"
  | some (inDeg, adj) =>
      let queue := (inDeg.filter (fun p => p.2 == 0)).map (fun p => p.1)
      let res := kahnRun adj (ids.length + edges.length + 1) queue inDeg []
      if res.1.length ≠ ids.length then
        .error "Workflow contains cycles or unreachable nodes"
      else .ok res.1

/-- The canned default trigger payload of execute_workflow. -/
def defaultTriggerData : Value :=
  .dict [("message", .str "Hello, how can I help you today?"),
         ("text", .str "Hello, how can I help you today?"),
         ("user", .str "anonymous"),
         ("channel", .str ""),
         ("timestamp", .str "")]

/-- The node-dispatch loop of execute_workflow (progress callbacks are
external side effects and not modelled): look the node up by id (the
`next(...)` raising on a missing id is the error case, unreachable when
the order came from the sort over these nodes), execute it, stop at the
first failure with an error completion, complete normally otherwise. -/
def runLoop (exec : NodeExec) (nodes : List Node) (edges : List Edge) :
    List String → ExecCtx → ExecCtx
  | [], ctx => { ctx with status := "completed" }
  | nid :: rest, ctx =>
      match nodes.find? (fun n => n.id == nid) with
      | none => { ctx with status := "error" }
      | some node =>
          match executeNode exec node edges ctx with
          | (ctx2, .ok _) => runLoop exec nodes edges rest ctx2
          | (ctx2, .error _) => { ctx2 with status := "error" }

/-- WorkflowExecutionEngine.execute_workflow for a full run (no
start_node_id): substitute the canned default for an absent or falsy
trigger payload, topologically sort, dispatch in order; every failure path
is caught and returned as an error-status context — the call never
raises. -/
def executeWorkflow (exec : NodeExec) (workflowId executionId : String)
    (nodes : List Node) (edges : List Edge) (triggerData : Option Value)
    (credentials : Option (List (String × Value))) : ExecCtx :=
  let td :=
    match triggerData with
    | some v => if v.truthy then v else defaultTriggerData
    | none => defaultTriggerData
  let ctx0 : ExecCtx :=
    { workflowId := workflowId
      executionId := executionId
      nodeResults := []
      nodeStates := []
      executionOrder := []
      errors := []
      status := "running"
      triggerData := td
      credentials := credentials.getD [] }
  match topologicalSort (nodes.map (fun n => n.id))
      (edges.map (fun e => (e.source, e.target))) with
  | .error _ => { ctx0 with status := "error" }
  | .ok order => runLoop exec nodes edges order ctx0

/- ===== Specification-side notions for the sort proofs ===== -/

/-- Number of edges into `x` (with multiplicity). -/
def cntEdges (edges : List (String × String)) (x : String) : Nat :=
  (edges.filter (fun e => e.2 == x)).length

/-- The adjacency list of `x` that buildMaps accumulates: the targets of
the edges out of `x`, in edge order, with multiplicity. -/
def adjListOf (edges : List (String × String)) (x : String) : List String :=
  (edges.filter (fun e => e.1 == x)).map (fun e => e.2)

/-- Number of edges into `x` whose source has already been popped
(appears in `o`). -/
def poppedCnt (edges : List (String × String)) (o : List String)
    (x : String) : Nat :=
  (edges.filter (fun e => e.2 == x && o.contains e.1)).length

/-- The loop measure contribution of the in-degree map: the sum of the
positive degrees. -/
def degSum (d : List (String × Int)) : Nat :=
  (d.map (fun p => p.2.toNat)).sum

/-- The invariant of the Kahn while-loop, tying queue `q`, in-degree map
`d` and emitted order `o` to the fixed edge list and key set. -/
structure KahnInv (edges : List (String × String)) (keys : List String)
    (q : List String) (d : List (String × Int)) (o : List String) : Prop where
  keysEq : d.map Prod.fst = keys
  oNodup : o.Nodup
  qNodup : q.Nodup
  disj : ∀ x, x ∈ o → x ∉ q
  oSub : ∀ x, x ∈ o → x ∈ keys
  qSub : ∀ x, x ∈ q → x ∈ keys
  deg : ∀ x, x ∈ keys →
    dget d x = some ((cntEdges edges x : Int) - (poppedCnt edges o x : Int))
  qReady : ∀ x, x ∈ q → ∀ e, e ∈ edges → e.2 = x → e.1 ∈ o
  oSorted : ∀ i, (hi : i < o.length) → ∀ e, e ∈ edges →
    e.2 = o.get ⟨i, hi⟩ → e.1 ∈ o.take i
  ready : ∀ x, x ∈ keys → dget d x = some 0 → x ∈ o ∨ x ∈ q

/-- The intermediate invariant while the inner for-loop processes the
dequeued node `c`'s adjacency list: `done` is the processed prefix of that
list, `o` the order before `c` was appended. -/
structure MidInv (edges : List (String × String)) (keys : List String)
    (c : String) (o : List String) (done : List String)
    (q : List String) (d : List (String × Int)) : Prop where
  keysEq : d.map Prod.fst = keys
  qNodup : q.Nodup
  qSub : ∀ x, x ∈ q → x ∈ keys
  fresh : ∀ x, x ∈ q → x ∉ o ∧ x ≠ c
  deg : ∀ x, x ∈ keys →
    dget d x = some ((cntEdges edges x : Int) -
      (poppedCnt edges o x : Int) - (done.count x : Int))
  qBound : ∀ x, x ∈ q →
    cntEdges edges x ≤ poppedCnt edges o x + done.count x
  ready : ∀ x, x ∈ keys → dget d x = some 0 → x ∈ o ∨ x = c ∨ x ∈ q

/- ===== Concrete instances used by the claims ===== -/

/-- The round-trip context: json = \x7buser: \x7bname: "Ada"\x7d\x7d. -/
def ctxRoundTrip : EvalContext :=
  { nodeResults := []
    jsonData := .dict [("user", .dict [("name", .str "Ada")])]
    vars := .null }

/-- A context with one recorded node result, for the `$json.<nodeId>`
lookup behaviour. -/
def ctxNodeRef : EvalContext :=
  { nodeResults := [("node1", .dict [("main", .dict [("greeting", .str "hi")])])]
    jsonData := .dict []
    vars := .null }

/-- A context whose workflow variable `count` is the number zero. -/
def ctxVarsZero : EvalContext :=
  { nodeResults := []
    jsonData := .dict []
    vars := .dict [("count", .int 0)] }

/-- The filter-node configuration of the filter-semantics property. -/
def filterProps : List (String × Value) :=
  [("field", .str "status"), ("operator", .str "equals"),
   ("value", .str "active")]

/- ===== Theorems ===== -/

/- Association-list lemmas. -/

theorem dget_nil {α : Type} (k : String) : dget ([] : List (String × α)) k = none := rfl

theorem dget_cons {α : Type} (a : String × α) (l : List (String × α)) (k : String) :
    dget (a :: l) k = if a.1 == k then some a.2 else dget l k := by
  by_cases h : a.1 == k
  · simp [dget, List.find?, h]
  · simp only [Bool.not_eq_true] at h
    simp [dget, List.find?, h]

theorem dget_isSome_iff_mem {α : Type} (l : List (String × α)) (k : String) :
    (dget l k).isSome ↔ k ∈ l.map Prod.fst := by
  induction l with
  | nil => simp [dget_nil]
  | cons a l ih =>
      rw [dget_cons]
      by_cases h : a.1 = k
      · simp [h]
      · have hb : (a.1 == k) = false := by simpa using h
        simp [hb, ih, Ne.symm h]

theorem dget_eq_none_of_not_mem {α : Type} {l : List (String × α)} {k : String}
    (h : k ∉ l.map Prod.fst) : dget l k = none := by
  cases hd : dget l k with
  | none => rfl
  | some v =>
      exact absurd ((dget_isSome_iff_mem l k).mp (by simp [hd])) h

theorem dget_of_mem_of_nodup {α : Type} {l : List (String × α)} {k : String}
    {v : α} (hmem : (k, v) ∈ l) (hnd : (l.map Prod.fst).Nodup) :
    dget l k = some v := by
  induction l with
  | nil => simp at hmem
  | cons a l ih =>
      rw [dget_cons]
      rcases List.mem_cons.mp hmem with h | h
      · subst h; simp
      · have hk : k ∈ l.map Prod.fst := List.mem_map.mpr ⟨(k, v), h, rfl⟩
        have ha : ¬ (a.1 == k) = true := by
          intro he
          have he2 : a.1 = k := by simpa using he
          exact (List.nodup_cons.mp (by simpa using hnd)).1 (he2 ▸ hk)
        simp only [ha, if_false]
        exact ih h ((List.nodup_cons.mp (by simpa using hnd)).2)

theorem dget_append {α : Type} (l1 l2 : List (String × α)) (k : String) :
    dget (l1 ++ l2) k =
      (match dget l1 k with
       | some v => some v
       | none => dget l2 k) := by
  induction l1 with
  | nil => simp [dget_nil]
  | cons a l ih =>
      rw [List.cons_append, dget_cons, dget_cons]
      by_cases h : a.1 == k
      · simp [h]
      · simp [h, ih]

theorem dget_setmap_self {α : Type} (l : List (String × α)) (k : String) (v : α) :
    dget (l.map (fun p => if p.1 == k then (k, v) else p)) k =
      if l.any (fun p => p.1 == k) then some v else none := by
  induction l with
  | nil => simp [dget_nil]
  | cons a l ih =>
      simp only [List.map_cons, List.any_cons]
      by_cases h : (a.1 == k) = true
      · simp only [h, if_true, Bool.true_or]
        rw [dget_cons]
        simp
      · have hb : (a.1 == k) = false := by simpa using h
        simp only [hb, Bool.false_eq_true, if_false, Bool.false_or]
        rw [dget_cons]
        simp only [hb, Bool.false_eq_true, if_false]
        exact ih

theorem dget_setmap_ne {α : Type} (l : List (String × α)) (k k' : String)
    (v : α) (hne : k' ≠ k) :
    dget (l.map (fun p => if p.1 == k then (k, v) else p)) k' = dget l k' := by
  induction l with
  | nil => rfl
  | cons a l ih =>
      simp only [List.map_cons]
      by_cases h : (a.1 == k) = true
      · have ha : a.1 = k := by simpa using h
        have h1 : (k == k') = false := by simpa using fun hh => hne hh.symm
        have h2 : (a.1 == k') = false := by
          simpa [ha] using fun hh => hne hh.symm
        simp only [h, if_true]
        rw [dget_cons, dget_cons]
        simp only [h1, h2, Bool.false_eq_true, if_false]
        exact ih
      · have hb : (a.1 == k) = false := by simpa using h
        simp only [hb, Bool.false_eq_true, if_false]
        rw [dget_cons, dget_cons]
        by_cases hc : (a.1 == k') = true
        · simp [hc]
        · have hc2 : (a.1 == k') = false := by simpa using hc
          simp only [hc2, Bool.false_eq_true, if_false]
          exact ih

theorem dget_dset_self {α : Type} (l : List (String × α)) (k : String) (v : α) :
    dget (dset l k v) k = some v := by
  by_cases h : (l.any (fun p => p.1 == k)) = true
  · simp only [dset, h, if_true]
    rw [dget_setmap_self]
    simp [h]
  · have hb : (l.any (fun p => p.1 == k)) = false := by
      rwa [Bool.not_eq_true] at h
    have hnone : dget l k = none := by
      cases hd : dget l k with
      | none => rfl
      | some w =>
          have hk := (dget_isSome_iff_mem l k).mp (by simp [hd])
          rcases List.mem_map.mp hk with ⟨p, hp, hpk⟩
          exact absurd (List.any_eq_true.mpr ⟨p, hp, by simp [hpk]⟩) h
    simp only [dset, hb, Bool.false_eq_true, if_false]
    rw [dget_append, hnone]
    rw [dget_cons]
    simp

theorem dget_dset_ne {α : Type} (l : List (String × α)) (k k' : String) (v : α)
    (hne : k' ≠ k) : dget (dset l k v) k' = dget l k' := by
  by_cases h : (l.any (fun p => p.1 == k)) = true
  · simp only [dset, h, if_true]
    exact dget_setmap_ne l k k' v hne
  · have hb : (l.any (fun p => p.1 == k)) = false := by
      rwa [Bool.not_eq_true] at h
    simp only [dset, hb, Bool.false_eq_true, if_false]
    rw [dget_append]
    have h1 : (k == k') = false := by simpa using fun hh => hne hh.symm
    cases hd : dget l k' with
    | none =>
        rw [dget_cons]
        simp [h1, dget_nil]
    | some w => rfl

theorem keys_dset {α : Type} (l : List (String × α)) (k : String) (v : α)
    (hmem : k ∈ l.map Prod.fst) : (dset l k v).map Prod.fst = l.map Prod.fst := by
  unfold dset
  have hany : l.any (fun p => p.1 == k) = true := by
    rcases List.mem_map.mp hmem with ⟨p, hp, hpk⟩
    exact List.any_eq_true.mpr ⟨p, hp, by simp [hpk]⟩
  simp only [hany, if_true, List.map_map]
  apply List.map_congr_left
  intro p _
  by_cases h : p.1 == k
  · have : p.1 = k := by simpa using h
    simp [h, Function.comp, this]
  · simp [h, Function.comp]

theorem dget_map_const {α : Type} (l : List String) (c : α) (x : String) :
    dget (l.map (fun a => (a, c))) x = if x ∈ l then some c else none := by
  induction l with
  | nil => simp [dget_nil]
  | cons a l ih =>
      simp only [List.map_cons]
      rw [dget_cons]
      by_cases h : a = x
      · subst h; simp
      · have hb : ¬ (a == x) = true := by simpa using h
        simp [hb, ih, Ne.symm h]

theorem keys_map_const {α : Type} (l : List String) (c : α) :
    (l.map (fun a => (a, c))).map Prod.fst = l := by
  induction l with
  | nil => rfl
  | cons a l ih => simp [ih]

/- decrDeg / bumpDeg / pushAdj lemmas. -/

theorem keys_decrDeg (l : List (String × Int)) (t : String) :
    (decrDeg l t).map Prod.fst = l.map Prod.fst := by
  induction l with
  | nil => rfl
  | cons a l ih =>
      rcases a with ⟨k, d⟩
      by_cases h : (k == t) = true
      · simp [decrDeg, h]
      · have hb : (k == t) = false := by rwa [Bool.not_eq_true] at h
        simp [decrDeg, hb, ih]

theorem dget_decrDeg_self (l : List (String × Int)) (t : String) :
    dget (decrDeg l t) t = (dget l t).map (fun d => d - 1) := by
  induction l with
  | nil => simp [decrDeg, dget_nil]
  | cons a l ih =>
      rcases a with ⟨k, d⟩
      by_cases h : (k == t) = true
      · simp only [decrDeg, h, if_true]
        rw [dget_cons, dget_cons]
        simp [h]
      · have hb : (k == t) = false := by rwa [Bool.not_eq_true] at h
        simp only [decrDeg, hb, Bool.false_eq_true, if_false]
        rw [dget_cons, dget_cons]
        simp [hb, ih]

theorem dget_decrDeg_ne (l : List (String × Int)) (t x : String) (hne : x ≠ t) :
    dget (decrDeg l t) x = dget l x := by
  induction l with
  | nil => rfl
  | cons a l ih =>
      rcases a with ⟨k, d⟩
      by_cases h : (k == t) = true
      · have hk : k = t := by simpa using h
        have h2 : (k == x) = false := by
          simpa [hk] using fun hh => hne hh.symm
        simp only [decrDeg, h, if_true]
        rw [dget_cons, dget_cons]
        simp [h2]
      · have hb : (k == t) = false := by rwa [Bool.not_eq_true] at h
        simp only [decrDeg, hb, Bool.false_eq_true, if_false]
        rw [dget_cons, dget_cons]
        by_cases hx : (k == x) = true
        · simp [hx]
        · have hx2 : (k == x) = false := by rwa [Bool.not_eq_true] at hx
          simp [hx2, ih]

theorem degSum_decrDeg_le (l : List (String × Int)) (t : String) :
    degSum (decrDeg l t) ≤ degSum l := by
  induction l with
  | nil => simp [decrDeg]
  | cons a l ih =>
      rcases a with ⟨k, d⟩
      by_cases h : (k == t) = true
      · simp only [decrDeg, h, if_true, degSum, List.map_cons, List.sum_cons]
        have : (d - 1).toNat ≤ d.toNat := by omega
        omega
      · have hb : (k == t) = false := by rwa [Bool.not_eq_true] at h
        simp only [decrDeg, hb, Bool.false_eq_true, if_false, degSum,
          List.map_cons, List.sum_cons]
        have := ih
        simp only [degSum] at this
        omega

theorem degSum_decrDeg_lt (l : List (String × Int)) (t : String)
    (h0 : dget (decrDeg l t) t = some 0) :
    degSum (decrDeg l t) < degSum l := by
  induction l with
  | nil => simp [decrDeg, dget_nil] at h0
  | cons a l ih =>
      rcases a with ⟨k, d⟩
      by_cases h : (k == t) = true
      · simp only [decrDeg, h, if_true] at h0 ⊢
        rw [dget_cons] at h0
        simp only [h, if_true] at h0
        have hd : d - 1 = 0 := by simpa using h0
        have hd1 : d = 1 := by omega
        simp only [degSum, List.map_cons, List.sum_cons, hd1]
        omega
      · have hb : (k == t) = false := by rwa [Bool.not_eq_true] at h
        simp only [decrDeg, hb, Bool.false_eq_true, if_false] at h0 ⊢
        rw [dget_cons] at h0
        simp only [hb, Bool.false_eq_true, if_false] at h0
        have := ih h0
        simp only [degSum, List.map_cons, List.sum_cons]
        simp only [degSum] at this
        omega

theorem bumpDeg_spec (l : List (String × Int)) (t : String)
    (r : List (String × Int)) (h : bumpDeg l t = some r) :
    r.map Prod.fst = l.map Prod.fst ∧
    dget r t = (dget l t).map (fun d => d + 1) ∧
    (∀ x, x ≠ t → dget r x = dget l x) := by
  induction l generalizing r with
  | nil => simp [bumpDeg] at h
  | cons a l ih =>
      rcases a with ⟨k, d⟩
      by_cases hk : (k == t) = true
      · have hkt : k = t := by simpa using hk
        simp only [bumpDeg, hk, if_true, Option.some.injEq] at h
        subst h
        refine ⟨by simp [hkt], ?_, ?_⟩
        · rw [dget_cons, dget_cons]
          simp [hk]
        · intro x hx
          have h2 : (k == x) = false := by
            simpa [hkt] using fun hh => hx hh.symm
          rw [dget_cons, dget_cons]
          simp [h2]
      · have hb : (k == t) = false := by rwa [Bool.not_eq_true] at hk
        simp only [bumpDeg, hb, Bool.false_eq_true, if_false] at h
        cases hr : bumpDeg l t with
        | none => rw [hr] at h; simp at h
        | some r2 =>
            rw [hr] at h
            simp only [Option.map_some'] at h
            rw [Option.some.injEq] at h
            subst h
            obtain ⟨hkeys, hself, hother⟩ := ih r2 hr
            refine ⟨by simp [hkeys], ?_, ?_⟩
            · rw [dget_cons, dget_cons]
              simp [hb, hself]
            · intro x hx
              rw [dget_cons, dget_cons]
              by_cases hkx : (k == x) = true
              · simp [hkx]
              · have hkx2 : (k == x) = false := by rwa [Bool.not_eq_true] at hkx
                simp [hkx2, hother x hx]

theorem bumpDeg_isSome (l : List (String × Int)) (t : String)
    (h : t ∈ l.map Prod.fst) : (bumpDeg l t).isSome := by
  induction l with
  | nil => simp at h
  | cons a l ih =>
      rcases a with ⟨k, d⟩
      by_cases hk : (k == t) = true
      · simp [bumpDeg, hk]
      · have hb : (k == t) = false := by rwa [Bool.not_eq_true] at hk
        have ht : t ∈ l.map Prod.fst := by
          have h2 : t = k ∨ t ∈ l.map Prod.fst := by simpa using h
          rcases h2 with h1 | h1
          · exact absurd (by simp [h1] : (k == t) = true) (by simp [hb])
          · exact h1
        cases hr : bumpDeg l t with
        | none =>
            have := ih ht
            rw [hr] at this
            simp at this
        | some r2 => simp [bumpDeg, hb, hr]

theorem degSum_bumpDeg (l : List (String × Int)) (t : String)
    (r : List (String × Int)) (h : bumpDeg l t = some r) :
    degSum r ≤ degSum l + 1 := by
  induction l generalizing r with
  | nil => simp [bumpDeg] at h
  | cons a l ih =>
      rcases a with ⟨k, d⟩
      by_cases hk : (k == t) = true
      · simp only [bumpDeg, hk, if_true, Option.some.injEq] at h
        subst h
        simp only [degSum, List.map_cons, List.sum_cons]
        have : (d + 1).toNat ≤ d.toNat + 1 := by omega
        omega
      · have hb : (k == t) = false := by rwa [Bool.not_eq_true] at hk
        simp only [bumpDeg, hb, Bool.false_eq_true, if_false] at h
        cases hr : bumpDeg l t with
        | none => rw [hr] at h; simp at h
        | some r2 =>
            rw [hr] at h
            simp only [Option.map_some'] at h
            rw [Option.some.injEq] at h
            subst h
            have := ih r2 hr
            simp only [degSum, List.map_cons, List.sum_cons]
            simp only [degSum] at this
            omega

theorem pushAdj_spec (l : List (String × List String)) (s t : String)
    (r : List (String × List String)) (h : pushAdj l s t = some r) :
    r.map Prod.fst = l.map Prod.fst ∧
    dget r s = (dget l s).map (fun vs => vs ++ [t]) ∧
    (∀ x, x ≠ s → dget r x = dget l x) := by
  induction l generalizing r with
  | nil => simp [pushAdj] at h
  | cons a l ih =>
      rcases a with ⟨k, vs⟩
      by_cases hk : (k == s) = true
      · have hks : k = s := by simpa using hk
        simp only [pushAdj, hk, if_true, Option.some.injEq] at h
        subst h
        refine ⟨by simp [hks], ?_, ?_⟩
        · rw [dget_cons, dget_cons]
          simp [hk]
        · intro x hx
          have h2 : (k == x) = false := by
            simpa [hks] using fun hh => hx hh.symm
          rw [dget_cons, dget_cons]
          simp [h2]
      · have hb : (k == s) = false := by rwa [Bool.not_eq_true] at hk
        simp only [pushAdj, hb, Bool.false_eq_true, if_false] at h
        cases hr : pushAdj l s t with
        | none => rw [hr] at h; simp at h
        | some r2 =>
            rw [hr] at h
            simp only [Option.map_some'] at h
            rw [Option.some.injEq] at h
            subst h
            obtain ⟨hkeys, hself, hother⟩ := ih r2 hr
            refine ⟨by simp [hkeys], ?_, ?_⟩
            · rw [dget_cons, dget_cons]
              simp [hb, hself]
            · intro x hx
              rw [dget_cons, dget_cons]
              by_cases hkx : (k == x) = true
              · simp [hkx]
              · have hkx2 : (k == x) = false := by rwa [Bool.not_eq_true] at hkx
                simp [hkx2, hother x hx]

theorem pushAdj_isSome (l : List (String × List String)) (s t : String)
    (h : s ∈ l.map Prod.fst) : (pushAdj l s t).isSome := by
  induction l with
  | nil => simp at h
  | cons a l ih =>
      rcases a with ⟨k, vs⟩
      by_cases hk : (k == s) = true
      · simp [pushAdj, hk]
      · have hb : (k == s) = false := by rwa [Bool.not_eq_true] at hk
        have ht : s ∈ l.map Prod.fst := by
          have h2 : s = k ∨ s ∈ l.map Prod.fst := by simpa using h
          rcases h2 with h1 | h1
          · exact absurd (by simp [h1] : (k == s) = true) (by simp [hb])
          · exact h1
        cases hr : pushAdj l s t with
        | none =>
            have := ih ht
            rw [hr] at this
            simp at this
        | some r2 => simp [pushAdj, hb, hr]

/- dedupFirst lemmas. -/

theorem mem_dedupFirstAux (l : List String) :
    ∀ seen x, x ∈ dedupFirstAux seen l ↔ (x ∈ l ∧ x ∉ seen) := by
  induction l with
  | nil => intro seen x; simp [dedupFirstAux]
  | cons a l ih =>
      intro seen x
      by_cases h : seen.contains a
      · have ha : a ∈ seen := by simpa using h
        simp only [dedupFirstAux, h, if_true]
        rw [ih]
        constructor
        · rintro ⟨h1, h2⟩
          exact ⟨List.mem_cons_of_mem _ h1, h2⟩
        · rintro ⟨h1, h2⟩
          rcases List.mem_cons.mp h1 with h1 | h1
          · exact absurd (h1 ▸ ha) h2
          · exact ⟨h1, h2⟩
      · have hb : seen.contains a = false := by rwa [Bool.not_eq_true] at h
        simp only [dedupFirstAux, hb, Bool.false_eq_true, if_false]
        rw [List.mem_cons, ih]
        constructor
        · rintro (h1 | ⟨h1, h2⟩)
          · subst h1
            exact ⟨List.mem_cons_self _ _, by simpa using hb⟩
          · refine ⟨List.mem_cons_of_mem _ h1, fun hx => h2 ?_⟩
            exact List.mem_cons_of_mem _ hx
        · rintro ⟨h1, h2⟩
          rcases List.mem_cons.mp h1 with h1 | h1
          · exact Or.inl h1
          · by_cases hx : x = a
            · exact Or.inl hx
            · exact Or.inr ⟨h1, fun hm =>
                (List.mem_cons.mp hm).elim hx h2⟩

theorem mem_dedupFirst (l : List String) (x : String) :
    x ∈ dedupFirst l ↔ x ∈ l := by
  rw [dedupFirst, mem_dedupFirstAux]
  simp

theorem nodup_dedupFirstAux (l : List String) :
    ∀ seen, (dedupFirstAux seen l).Nodup := by
  induction l with
  | nil => intro seen; simp [dedupFirstAux]
  | cons a l ih =>
      intro seen
      by_cases h : seen.contains a
      · simp only [dedupFirstAux, h, if_true]
        exact ih seen
      · have hb : seen.contains a = false := by rwa [Bool.not_eq_true] at h
        simp only [dedupFirstAux, hb, Bool.false_eq_true, if_false]
        refine List.nodup_cons.mpr ⟨?_, ih (a :: seen)⟩
        intro hmem
        exact ((mem_dedupFirstAux l (a :: seen) a).mp hmem).2
          (List.mem_cons_self _ _)

theorem nodup_dedupFirst (l : List String) : (dedupFirst l).Nodup :=
  nodup_dedupFirstAux l []

theorem length_dedupFirstAux_le (l : List String) :
    ∀ seen, (dedupFirstAux seen l).length ≤ l.length := by
  induction l with
  | nil => intro seen; simp [dedupFirstAux]
  | cons a l ih =>
      intro seen
      by_cases h : seen.contains a
      · simp only [dedupFirstAux, h, if_true]
        exact (ih seen).trans (by simp)
      · have hb : seen.contains a = false := by rwa [Bool.not_eq_true] at h
        simp only [dedupFirstAux, hb, Bool.false_eq_true, if_false,
          List.length_cons]
        exact Nat.succ_le_succ (ih (a :: seen))

theorem length_dedupFirst_le (l : List String) :
    (dedupFirst l).length ≤ l.length :=
  length_dedupFirstAux_le l []

theorem dedupFirstAux_of_nodup (l : List String) :
    ∀ seen, l.Nodup → (∀ x, x ∈ l → x ∉ seen) → dedupFirstAux seen l = l := by
  induction l with
  | nil => intro seen _ _; rfl
  | cons a l ih =>
      intro seen hnd hdisj
      have ha : seen.contains a = false := by
        simpa using hdisj a (List.mem_cons_self _ _)
      simp only [dedupFirstAux, ha, Bool.false_eq_true, if_false]
      rw [ih (a :: seen) (List.nodup_cons.mp hnd).2]
      intro x hx
      intro hmem
      rcases List.mem_cons.mp hmem with h1 | h1
      · exact (List.nodup_cons.mp hnd).1 (h1 ▸ hx)
      · exact hdisj x (List.mem_cons_of_mem _ hx) h1

theorem dedupFirst_of_nodup (l : List String) (h : l.Nodup) :
    dedupFirst l = l :=
  dedupFirstAux_of_nodup l [] h (by simp)

/- Edge-counting lemmas. -/

theorem cntEdges_cons (s t x : String) (es : List (String × String)) :
    cntEdges ((s, t) :: es) x = (if t = x then 1 else 0) + cntEdges es x := by
  by_cases h : t = x
  · simp only [cntEdges, List.filter_cons]
    simp [h]
    omega
  · have hb : (t == x) = false := by simpa using h
    simp only [cntEdges, List.filter_cons, hb]
    simp [h]

theorem adjListOf_cons (s t x : String) (es : List (String × String)) :
    adjListOf ((s, t) :: es) x =
      (if s = x then [t] else []) ++ adjListOf es x := by
  by_cases h : s = x
  · simp [adjListOf, List.filter_cons, h]
  · have hb : (s == x) = false := by simpa using h
    simp [adjListOf, List.filter_cons, hb, h]

theorem poppedCnt_nil (edges : List (String × String)) (x : String) :
    poppedCnt edges [] x = 0 := by
  simp [poppedCnt, List.filter_eq_nil_iff]

theorem poppedCnt_cons (s t x : String) (es : List (String × String))
    (o : List String) :
    poppedCnt ((s, t) :: es) o x =
      (if t = x ∧ s ∈ o then 1 else 0) + poppedCnt es o x := by
  by_cases h : (t == x && o.contains s) = true
  · have hp : t = x ∧ s ∈ o := by
      obtain ⟨h1, h2⟩ := Bool.and_eq_true _ _ |>.mp h
      exact ⟨by simpa using h1, List.elem_iff.mp h2⟩
    rw [if_pos hp]
    simp only [poppedCnt, List.filter_cons, h, if_true, List.length_cons]
    omega
  · have h2 : (t == x && o.contains s) = false := by rwa [Bool.not_eq_true] at h
    have hp : ¬ (t = x ∧ s ∈ o) := by
      rintro ⟨h1, h3⟩
      apply h
      rw [Bool.and_eq_true]
      exact ⟨by simpa using h1, List.elem_iff.mpr h3⟩
    rw [if_neg hp]
    simp only [poppedCnt, List.filter_cons, h2, Bool.false_eq_true, if_false]
    omega

theorem filter_length_mono {α : Type} (l : List α) (p q : α → Bool)
    (h : ∀ a, a ∈ l → p a = true → q a = true) :
    (l.filter p).length ≤ (l.filter q).length := by
  induction l with
  | nil => simp
  | cons a l ih =>
      have ih2 := ih (fun b hb => h b (List.mem_cons_of_mem _ hb))
      by_cases hp : p a = true
      · have hq := h a (List.mem_cons_self _ _) hp
        simp only [List.filter_cons, hp, hq, if_true, List.length_cons]
        omega
      · have hp2 : p a = false := by rwa [Bool.not_eq_true] at hp
        by_cases hq : q a = true
        · simp only [List.filter_cons, hp2, hq, Bool.false_eq_true, if_false,
            if_true, List.length_cons]
          omega
        · have hq2 : q a = false := by rwa [Bool.not_eq_true] at hq
          simp only [List.filter_cons, hp2, hq2, Bool.false_eq_true, if_false]
          omega

theorem poppedCnt_le_cnt (edges : List (String × String)) (o : List String)
    (x : String) : poppedCnt edges o x ≤ cntEdges edges x := by
  apply filter_length_mono
  intro e _ hp
  exact (Bool.and_eq_true _ _ |>.mp hp).1

theorem count_ite_single (t x : String) (p : Prop) [Decidable p] :
    ((if p then [t] else []).count x) = if p ∧ t = x then 1 else 0 := by
  by_cases hp : p
  · simp only [if_pos hp, hp, true_and]
    by_cases ht : t = x
    · simp [ht]
    · rw [if_neg ht, List.count_eq_zero]
      exact fun hm => ht ((List.mem_singleton.mp hm).symm)
  · simp [hp]

theorem poppedCnt_append_single (edges : List (String × String))
    (o : List String) (c x : String) (hco : c ∉ o) :
    poppedCnt edges (o ++ [c]) x =
      poppedCnt edges o x + (adjListOf edges c).count x := by
  induction edges with
  | nil => simp [poppedCnt_nil, poppedCnt, adjListOf]
  | cons e es ih =>
      rcases e with ⟨s, t⟩
      rw [poppedCnt_cons, poppedCnt_cons, adjListOf_cons, List.count_append,
        count_ite_single, ih]
      by_cases ht : t = x
      · by_cases hso : s ∈ o
        · have hs_ne : ¬ (s = c) := fun hh => hco (hh ▸ hso)
          rw [if_pos ⟨ht, List.mem_append_left _ hso⟩, if_pos ⟨ht, hso⟩,
            if_neg (fun hh => hs_ne hh.1)]
          omega
        · by_cases hsc : s = c
          · rw [if_pos ⟨ht, by simp [hsc]⟩, if_neg (fun hh => hso hh.2),
              if_pos ⟨hsc, ht⟩]
            omega
          · have h1 : s ∉ o ++ [c] := by
              intro hm
              rcases List.mem_append.mp hm with hm | hm
              · exact hso hm
              · exact hsc (by simpa using hm)
            rw [if_neg (fun hh => h1 hh.2), if_neg (fun hh => hso hh.2),
              if_neg (fun hh => hsc hh.1)]
            omega
      · rw [if_neg (fun hh => ht hh.1), if_neg (fun hh => ht hh.1),
          if_neg (fun hh => ht hh.2)]
        omega

theorem poppedCnt_eq_cnt_of_all (edges : List (String × String))
    (o : List String) (x : String)
    (h : ∀ e, e ∈ edges → e.2 = x → e.1 ∈ o) :
    poppedCnt edges o x = cntEdges edges x := by
  unfold poppedCnt cntEdges
  congr 1
  apply List.filter_congr
  intro e he
  by_cases ht : e.2 = x
  · have hs := h e he ht
    simp [ht, hs, List.elem_iff]
  · simp [ht]

theorem cnt_pos_of_edge (edges : List (String × String)) (x : String)
    (e : String × String) (he : e ∈ edges) (ht : e.2 = x) :
    0 < cntEdges edges x := by
  unfold cntEdges
  have : e ∈ edges.filter (fun e => e.2 == x) :=
    List.mem_filter.mpr ⟨he, by simp [ht]⟩
  exact List.length_pos.mpr (fun hnil => by simp [hnil] at this)

theorem mem_adjListOf (edges : List (String × String)) (c n : String) :
    n ∈ adjListOf edges c ↔ (c, n) ∈ edges := by
  unfold adjListOf
  constructor
  · intro h
    rcases List.mem_map.mp h with ⟨e, hef, hen⟩
    obtain ⟨hee, hc⟩ := List.mem_filter.mp hef
    have : e.1 = c := by simpa using hc
    have : e = (c, n) := by
      rcases e with ⟨a, b⟩
      simp only [Prod.mk.injEq]
      exact ⟨this, hen⟩
    exact this ▸ hee
  · intro h
    exact List.mem_map.mpr ⟨(c, n), List.mem_filter.mpr ⟨h, by simp⟩, rfl⟩

theorem count_le_of_prefix_cons (done ns : List String) (n x : String)
    (h : x = n) : done.count x + 1 ≤ (done ++ n :: ns).count x := by
  subst h
  rw [List.count_append, List.count_cons_self]
  omega

/- Loop measure. -/

theorem processNeighbors_measure (ns : List String) :
    ∀ d q, (processNeighbors d q ns).2.length +
      degSum (processNeighbors d q ns).1 ≤ q.length + degSum d := by
  induction ns with
  | nil => intro d q; simp [processNeighbors]
  | cons n ns ih =>
      intro d q
      simp only [processNeighbors]
      by_cases h : (dget (decrDeg d n) n == some 0) = true
      · rw [if_pos h]
        have h0 : dget (decrDeg d n) n = some 0 := by simpa using h
        have hlt := degSum_decrDeg_lt d n h0
        have hih := ih (decrDeg d n) (q ++ [n])
        simp only [List.length_append, List.length_cons, List.length_nil] at hih
        omega
      · rw [if_neg h]
        have hle := degSum_decrDeg_le d n
        have hih := ih (decrDeg d n) q
        omega

theorem kahnRun_drains (adj : List (String × List String)) :
    ∀ fuel q d o, q.length + degSum d < fuel →
      (kahnRun adj fuel q d o).2 = [] := by
  intro fuel
  induction fuel with
  | zero => intro q d o h; omega
  | succ fuel ih =>
      intro q d o h
      cases q with
      | nil => simp [kahnRun]
      | cons c rest =>
          simp only [kahnRun]
          apply ih
          have hm := processNeighbors_measure ((dget adj c).getD []) d rest
          simp only [List.length_cons] at h
          omega

/- Count helpers. -/

theorem count_append_single_self (done : List String) (n : String) :
    (done ++ [n]).count n = done.count n + 1 := by
  rw [List.count_append, List.count_cons_self]
  simp

theorem count_append_single_ne (done : List String) (n x : String)
    (h : x ≠ n) : (done ++ [n]).count x = done.count x := by
  rw [List.count_append]
  have h0 : List.count x [n] = 0 :=
    List.count_eq_zero.mpr (fun hm => h (List.mem_singleton.mp hm))
  omega

theorem count_le_count_append (done rest : List String) (x : String) :
    done.count x ≤ (done ++ rest).count x := by
  rw [List.count_append]
  omega

theorem filter_length_lt {α : Type} (l : List α) (p q : α → Bool)
    (hpq : ∀ a, a ∈ l → p a = true → q a = true) (a : α) (ha : a ∈ l)
    (hqa : q a = true) (hpa : p a = false) :
    (l.filter p).length < (l.filter q).length := by
  induction l with
  | nil => simp at ha
  | cons b l ih =>
      rcases List.mem_cons.mp ha with hb | hb
      · subst hb
        have hmono := filter_length_mono l p q
          (fun x hx => hpq x (List.mem_cons_of_mem _ hx))
        simp only [List.filter_cons, hpa, hqa, Bool.false_eq_true, if_false,
          if_true, List.length_cons]
        omega
      · have ih2 := ih (fun x hx => hpq x (List.mem_cons_of_mem _ hx)) hb
        by_cases hpb : p b = true
        · have hqb := hpq b (List.mem_cons_self _ _) hpb
          simp only [List.filter_cons, hpb, hqb, if_true, List.length_cons]
          omega
        · have hpb2 : p b = false := by rwa [Bool.not_eq_true] at hpb
          by_cases hqb : q b = true
          · simp only [List.filter_cons, hpb2, hqb, Bool.false_eq_true,
              if_false, if_true, List.length_cons]
            omega
          · have hqb2 : q b = false := by rwa [Bool.not_eq_true] at hqb
            simp only [List.filter_cons, hpb2, hqb2, Bool.false_eq_true,
              if_false]
            omega

theorem poppedCnt_all_of_eq (edges : List (String × String)) (o : List String)
    (x : String) (h : poppedCnt edges o x = cntEdges edges x) :
    ∀ e, e ∈ edges → e.2 = x → e.1 ∈ o := by
  intro e he ht
  by_contra hno
  have hlt : poppedCnt edges o x < cntEdges edges x := by
    apply filter_length_lt edges _ _ _ e he (by simp [ht])
    · rw [Bool.eq_false_iff]
      intro hc
      obtain ⟨-, h2⟩ := Bool.and_eq_true _ _ |>.mp hc
      exact hno (List.elem_iff.mp h2)
    · intro a _ hp
      exact (Bool.and_eq_true _ _ |>.mp hp).1
  omega

/- The inner for-loop preserves the mid-iteration invariant. -/

theorem processNeighbors_mid (edges : List (String × String))
    (keys : List String) (c : String) (o : List String)
    (hvalid : ∀ e, e ∈ edges → e.1 ∈ keys ∧ e.2 ∈ keys)
    (hco : c ∉ o)
    (hcq : ∀ e, e ∈ edges → e.2 = c → e.1 ∈ o)
    (hoClosed : ∀ t, t ∈ o → ∀ e, e ∈ edges → e.2 = t → e.1 ∈ o)
    (ns : List String) :
    ∀ done q d, adjListOf edges c = done ++ ns →
      MidInv edges keys c o done q d →
      MidInv edges keys c o (adjListOf edges c)
        (processNeighbors d q ns).2 (processNeighbors d q ns).1 := by
  induction ns with
  | nil =>
      intro done q d hsplit hmid
      rw [List.append_nil] at hsplit
      rw [← hsplit] at hmid
      exact hmid
  | cons n ns ih =>
      intro done q d hsplit hmid
      have hedge : (c, n) ∈ edges := by
        rw [← mem_adjListOf, hsplit]
        exact List.mem_append_right _ (List.mem_cons_self _ _)
      have hnkeys : n ∈ keys := (hvalid _ hedge).2
      have hn_no : n ∉ o := fun hno => hco (hoClosed n hno (c, n) hedge rfl)
      have hn_nc : n ≠ c := fun hnc => hco (hcq (c, n) hedge hnc)
      have hsplit2 : adjListOf edges c = (done ++ [n]) ++ ns := by
        rw [hsplit]; simp
      have hdeg2 : ∀ x, x ∈ keys →
          dget (decrDeg d n) x = some ((cntEdges edges x : Int) -
            (poppedCnt edges o x : Int) - (((done ++ [n]).count x : Nat) : Int)) := by
        intro x hx
        by_cases hxn : x = n
        · subst hxn
          rw [dget_decrDeg_self, hmid.deg x hx, count_append_single_self]
          simp only [Option.map_some']
          congr 1
          push_cast
          ring
        · rw [dget_decrDeg_ne d n x hxn, hmid.deg x hx,
            count_append_single_ne done n x hxn]
      simp only [processNeighbors]
      by_cases henq : (dget (decrDeg d n) n == some 0) = true
      · rw [if_pos henq]
        have h0 : dget (decrDeg d n) n = some 0 := by simpa using henq
        have hn_nq : n ∉ q := by
          intro hnq
          have hb := hmid.qBound n hnq
          have h1 : poppedCnt edges o n + (adjListOf edges c).count n ≤
              cntEdges edges n := by
            rw [← poppedCnt_append_single edges o c n hco]
            exact poppedCnt_le_cnt edges (o ++ [c]) n
          have h2 : done.count n + 1 ≤ (adjListOf edges c).count n := by
            rw [hsplit]
            exact count_le_of_prefix_cons done ns n n rfl
          omega
        refine ih (done ++ [n]) (q ++ [n]) (decrDeg d n) hsplit2 ?_
        refine ⟨?_, ?_, ?_, ?_, hdeg2, ?_, ?_⟩
        · rw [keys_decrDeg]; exact hmid.keysEq
        · rw [List.nodup_append]
          refine ⟨hmid.qNodup, List.nodup_singleton n, fun a ha hb => ?_⟩
          have han : a = n := List.mem_singleton.mp hb
          subst han
          exact hn_nq ha
        · intro x hx
          rcases List.mem_append.mp hx with hx | hx
          · exact hmid.qSub x hx
          · have hxn : x = n := List.mem_singleton.mp hx
            subst hxn
            exact hnkeys
        · intro x hx
          rcases List.mem_append.mp hx with hx | hx
          · exact hmid.fresh x hx
          · have hxn : x = n := List.mem_singleton.mp hx
            subst hxn
            exact ⟨hn_no, hn_nc⟩
        · intro x hx
          rcases List.mem_append.mp hx with hx | hx
          · have hb := hmid.qBound x hx
            have hc2 := count_le_count_append done [n] x
            omega
          · have hxn : x = n := List.mem_singleton.mp hx
            subst hxn
            have hd := hdeg2 x hnkeys
            rw [h0] at hd
            have heq := Option.some.inj hd
            omega
        · intro x hx hdx
          by_cases hxn : x = n
          · subst hxn
            exact Or.inr (Or.inr
              (List.mem_append_right _ (List.mem_singleton.mpr rfl)))
          · rw [dget_decrDeg_ne d n x hxn] at hdx
            rcases hmid.ready x hx hdx with h | h | h
            · exact Or.inl h
            · exact Or.inr (Or.inl h)
            · exact Or.inr (Or.inr (List.mem_append_left _ h))
      · rw [if_neg henq]
        have h0 : dget (decrDeg d n) n ≠ some 0 := by simpa using henq
        refine ih (done ++ [n]) q (decrDeg d n) hsplit2 ?_
        refine ⟨?_, hmid.qNodup, hmid.qSub, hmid.fresh, hdeg2, ?_, ?_⟩
        · rw [keys_decrDeg]; exact hmid.keysEq
        · intro x hx
          have hb := hmid.qBound x hx
          have hc2 := count_le_count_append done [n] x
          omega
        · intro x hx hdx
          by_cases hxn : x = n
          · subst hxn
            exact absurd hdx h0
          · rw [dget_decrDeg_ne d n x hxn] at hdx
            exact hmid.ready x hx hdx

/- One Kahn iteration preserves the invariant. -/

theorem get_append_left {α : Type} (l1 l2 : List α) :
    ∀ i, ∀ h : i < l1.length, ∀ h2 : i < (l1 ++ l2).length,
      (l1 ++ l2).get ⟨i, h2⟩ = l1.get ⟨i, h⟩ := by
  induction l1 with
  | nil => intro i h h2; simp at h
  | cons b l1 ih =>
      intro i h h2
      cases i with
      | zero => rfl
      | succ n => exact ih n (by simpa using h) (by simpa using h2)

theorem get_append_last {α : Type} (l : List α) (a : α)
    (h : l.length < (l ++ [a]).length) :
    (l ++ [a]).get ⟨l.length, h⟩ = a := by
  induction l with
  | nil => rfl
  | cons b l ih => exact ih (by simp)

theorem dget_mem {α : Type} {l : List (String × α)} {k : String} {v : α}
    (h : dget l k = some v) : (k, v) ∈ l := by
  unfold dget at h
  cases hf : l.find? (fun p => p.1 == k) with
  | none => rw [hf] at h; simp at h
  | some p =>
      rw [hf] at h
      have hp := List.find?_some hf
      have hm := List.mem_of_find?_eq_some hf
      have hk : p.1 = k := by simpa using hp
      have hv : p.2 = v := by simpa using h
      rcases p with ⟨a, b⟩
      simp only at hk hv
      rw [← hk, ← hv]
      exact hm

theorem kahn_step (edges : List (String × String)) (keys : List String)
    (hvalid : ∀ e, e ∈ edges → e.1 ∈ keys ∧ e.2 ∈ keys)
    (c : String) (rest : List String) (d : List (String × Int))
    (o : List String)
    (inv : KahnInv edges keys (c :: rest) d o) :
    KahnInv edges keys
      (processNeighbors d rest (adjListOf edges c)).2
      (processNeighbors d rest (adjListOf edges c)).1
      (o ++ [c]) := by
  have hco : c ∉ o := fun hc => inv.disj c hc (List.mem_cons_self _ _)
  have hcq : ∀ e, e ∈ edges → e.2 = c → e.1 ∈ o :=
    fun e he ht => inv.qReady c (List.mem_cons_self _ _) e he ht
  have hoClosed : ∀ t, t ∈ o → ∀ e, e ∈ edges → e.2 = t → e.1 ∈ o := by
    intro t ht e he hte
    rcases List.mem_iff_get.mp ht with ⟨i, hget⟩
    have hres := inv.oSorted i.1 i.2 e he (by rw [hte, ← hget])
    exact List.take_subset _ _ hres
  have hrest_nodup : rest.Nodup := (List.nodup_cons.mp inv.qNodup).2
  have hc_rest : c ∉ rest := (List.nodup_cons.mp inv.qNodup).1
  have hmid0 : MidInv edges keys c o [] rest d := by
    refine ⟨inv.keysEq, hrest_nodup, ?_, ?_, ?_, ?_, ?_⟩
    · exact fun x hx => inv.qSub x (List.mem_cons_of_mem _ hx)
    · intro x hx
      constructor
      · intro hxo
        exact inv.disj x hxo (List.mem_cons_of_mem _ hx)
      · intro hxc
        subst hxc
        exact hc_rest hx
    · intro x hx
      rw [inv.deg x hx]
      simp
    · intro x hx
      have hall := inv.qReady x (List.mem_cons_of_mem _ hx)
      have hpe := poppedCnt_eq_cnt_of_all edges o x hall
      simp [hpe]
    · intro x hx hdx
      rcases inv.ready x hx hdx with h | h
      · exact Or.inl h
      · rcases List.mem_cons.mp h with h | h
        · exact Or.inr (Or.inl h)
        · exact Or.inr (Or.inr h)
  have hmidF := processNeighbors_mid edges keys c o hvalid hco hcq hoClosed
    (adjListOf edges c) [] rest d (by simp) hmid0
  refine ⟨hmidF.keysEq, ?_, hmidF.qNodup, ?_, ?_, hmidF.qSub, ?_, ?_, ?_, ?_⟩
  · rw [List.nodup_append]
    refine ⟨inv.oNodup, List.nodup_singleton c, fun a ha hb => ?_⟩
    have hac : a = c := List.mem_singleton.mp hb
    subst hac
    exact hco ha
  · intro x hx hxq
    obtain ⟨hxo, hxc⟩ := hmidF.fresh x hxq
    rcases List.mem_append.mp hx with h | h
    · exact hxo h
    · exact hxc (List.mem_singleton.mp h)
  · intro x hx
    rcases List.mem_append.mp hx with h | h
    · exact inv.oSub x h
    · have hxc : x = c := List.mem_singleton.mp h
      rw [hxc]
      exact inv.qSub c (List.mem_cons_self _ _)
  · intro x hx
    rw [hmidF.deg x hx, poppedCnt_append_single edges o c x hco]
    congr 1
    push_cast
    ring
  · intro x hxq e he ht
    have hb := hmidF.qBound x hxq
    have h1 : poppedCnt edges (o ++ [c]) x = cntEdges edges x := by
      have h2 := poppedCnt_le_cnt edges (o ++ [c]) x
      have h3 := poppedCnt_append_single edges o c x hco
      omega
    exact poppedCnt_all_of_eq edges (o ++ [c]) x h1 e he ht
  · intro i hi e he ht
    have hi2 : i < o.length + 1 := by
      simpa using hi
    by_cases hio : i < o.length
    · rw [List.take_append_of_le_length (le_of_lt hio)]
      rw [get_append_left o [c] i hio hi] at ht
      exact inv.oSorted i hio e he ht
    · have hieq : i = o.length := by omega
      subst hieq
      rw [get_append_last o c hi] at ht
      rw [List.take_left]
      exact hcq e he ht
  · intro x hx hdx
    rcases hmidF.ready x hx hdx with h | h | h
    · exact Or.inl (List.mem_append_left _ h)
    · exact Or.inl (List.mem_append_right _ (List.mem_singleton.mpr h))
    · exact Or.inr h

/- buildMaps lemmas. -/

theorem pushAdj_some_mem (l : List (String × List String)) (s t : String)
    (r : List (String × List String)) (h : pushAdj l s t = some r) :
    s ∈ l.map Prod.fst := by
  induction l generalizing r with
  | nil => simp [pushAdj] at h
  | cons a l ih =>
      rcases a with ⟨k, vs⟩
      by_cases hk : (k == s) = true
      · simp [show k = s by simpa using hk]
      · have hb : (k == s) = false := by rwa [Bool.not_eq_true] at hk
        simp only [pushAdj, hb, Bool.false_eq_true, if_false] at h
        cases hr : pushAdj l s t with
        | none => rw [hr] at h; simp at h
        | some r2 => exact List.mem_cons_of_mem _ (ih r2 hr)

theorem bumpDeg_some_mem (l : List (String × Int)) (t : String)
    (r : List (String × Int)) (h : bumpDeg l t = some r) :
    t ∈ l.map Prod.fst := by
  induction l generalizing r with
  | nil => simp [bumpDeg] at h
  | cons a l ih =>
      rcases a with ⟨k, d⟩
      by_cases hk : (k == t) = true
      · simp [show k = t by simpa using hk]
      · have hb : (k == t) = false := by rwa [Bool.not_eq_true] at hk
        simp only [bumpDeg, hb, Bool.false_eq_true, if_false] at h
        cases hr : bumpDeg l t with
        | none => rw [hr] at h; simp at h
        | some r2 => exact List.mem_cons_of_mem _ (ih r2 hr)

theorem buildMaps_spec (es : List (String × String)) :
    ∀ d a d2 a2, buildMaps es d a = some (d2, a2) →
      d2.map Prod.fst = d.map Prod.fst ∧
      a2.map Prod.fst = a.map Prod.fst ∧
      (∀ e, e ∈ es → e.1 ∈ a.map Prod.fst ∧ e.2 ∈ d.map Prod.fst) ∧
      (∀ x, dget d2 x =
        (dget d x).map (fun v => v + (cntEdges es x : Int))) ∧
      (∀ x, dget a2 x = (dget a x).map (fun vs => vs ++ adjListOf es x)) ∧
      degSum d2 ≤ degSum d + es.length := by
  induction es with
  | nil =>
      intro d a d2 a2 h
      simp only [buildMaps, Option.some.injEq, Prod.mk.injEq] at h
      obtain ⟨h1, h2⟩ := h
      subst h1; subst h2
      refine ⟨rfl, rfl, by simp, ?_, ?_, by simp⟩
      · intro x
        cases hd : dget d x <;> simp [cntEdges]
      · intro x
        cases hd : dget a x <;> simp [adjListOf]
  | cons e es ih =>
      rcases e with ⟨s, t⟩
      intro d a d2 a2 h
      simp only [buildMaps] at h
      cases ha1 : pushAdj a s t with
      | none => rw [ha1] at h; simp at h
      | some a1 =>
          rw [ha1] at h
          cases hd1 : bumpDeg d t with
          | none => rw [hd1] at h; simp at h
          | some d1 =>
              rw [hd1] at h
              obtain ⟨hdkeys, hdself, hdother⟩ := bumpDeg_spec d t d1 hd1
              obtain ⟨hakeys, haself, haother⟩ := pushAdj_spec a s t a1 ha1
              obtain ⟨k1, k2, k3, k4, k5, k6⟩ := ih d1 a1 d2 a2 h
              refine ⟨k1.trans hdkeys, k2.trans hakeys, ?_, ?_, ?_, ?_⟩
              · intro e2 he2
                rcases List.mem_cons.mp he2 with h1 | h1
                · subst h1
                  exact ⟨pushAdj_some_mem a s t a1 ha1,
                    bumpDeg_some_mem d t d1 hd1⟩
                · have := k3 e2 h1
                  rw [hakeys, hdkeys] at this
                  exact this
              · intro x
                rw [k4 x, cntEdges_cons]
                by_cases hx : x = t
                · subst hx
                  rw [hdself]
                  cases hd : dget d x
                  · simp
                  · simp
                    omega
                · rw [hdother x hx]
                  have : ¬ (t = x) := fun hh => hx hh.symm
                  cases hd : dget d x <;> simp [this]
              · intro x
                rw [k5 x, adjListOf_cons]
                by_cases hx : x = s
                · subst hx
                  rw [haself]
                  cases hd : dget a x <;> simp
                · rw [haother x hx]
                  have : ¬ (s = x) := fun hh => hx hh.symm
                  cases hd : dget a x <;> simp [this]
              · have := degSum_bumpDeg d t d1 hd1
                simp only [List.length_cons]
                omega

theorem buildMaps_isSome (es : List (String × String)) :
    ∀ d a, (∀ e, e ∈ es → e.1 ∈ a.map Prod.fst ∧ e.2 ∈ d.map Prod.fst) →
      (buildMaps es d a).isSome := by
  induction es with
  | nil => intro d a _; simp [buildMaps]
  | cons e es ih =>
      rcases e with ⟨s, t⟩
      intro d a hval
      have h1 := (hval (s, t) (List.mem_cons_self _ _)).1
      have h2 := (hval (s, t) (List.mem_cons_self _ _)).2
      simp only [buildMaps]
      cases ha1 : pushAdj a s t with
      | none =>
          have := pushAdj_isSome a s t h1
          rw [ha1] at this
          simp at this
      | some a1 =>
          cases hd1 : bumpDeg d t with
          | none =>
              have := bumpDeg_isSome d t h2
              rw [hd1] at this
              simp at this
          | some d1 =>
              obtain ⟨hdkeys, -, -⟩ := bumpDeg_spec d t d1 hd1
              obtain ⟨hakeys, -, -⟩ := pushAdj_spec a s t a1 ha1
              apply ih d1 a1
              intro e2 he2
              rw [hdkeys, hakeys]
              exact hval e2 (List.mem_cons_of_mem _ he2)

/- The Kahn loop preserves the invariant. -/

theorem kahnRun_inv (edges : List (String × String)) (keys : List String)
    (adj : List (String × List String))
    (hvalid : ∀ e, e ∈ edges → e.1 ∈ keys ∧ e.2 ∈ keys)
    (hadj : ∀ x, x ∈ keys → dget adj x = some (adjListOf edges x)) :
    ∀ fuel q d o, KahnInv edges keys q d o →
      ∃ d2, KahnInv edges keys (kahnRun adj fuel q d o).2 d2
        (kahnRun adj fuel q d o).1 := by
  intro fuel
  induction fuel with
  | zero => intro q d o inv; exact ⟨d, inv⟩
  | succ fuel ih =>
      intro q d o inv
      cases q with
      | nil => exact ⟨d, inv⟩
      | cons c rest =>
          have hck : c ∈ keys := inv.qSub c (List.mem_cons_self _ _)
          have hac : (dget adj c).getD [] = adjListOf edges c := by
            rw [hadj c hck]
            rfl
          have hstep := kahn_step edges keys hvalid c rest d o inv
          have hres : kahnRun adj (fuel + 1) (c :: rest) d o =
              kahnRun adj fuel
                (processNeighbors d rest (adjListOf edges c)).2
                (processNeighbors d rest (adjListOf edges c)).1 (o ++ [c]) := by
            simp only [kahnRun]
            rw [hac]
          rw [hres]
          exact ih _ _ _ hstep

/- The invariant holds at loop entry. -/

theorem kahn_init (ids : List String) (edges : List (String × String))
    (inDeg : List (String × Int)) (adj : List (String × List String))
    (hb : buildMaps edges (initZero ids) (initAdj ids) = some (inDeg, adj)) :
    KahnInv edges (dedupFirst ids)
      ((inDeg.filter (fun p => p.2 == 0)).map (fun p => p.1)) inDeg [] := by
  obtain ⟨hk, -, hval, hd, -, -⟩ := buildMaps_spec edges _ _ _ _ hb
  have hkeys : inDeg.map Prod.fst = dedupFirst ids := by
    rw [hk]
    exact keys_map_const (dedupFirst ids) 0
  have hkeys_nodup : (inDeg.map Prod.fst).Nodup := by
    rw [hkeys]
    exact nodup_dedupFirst ids
  have hdeg : ∀ x, x ∈ dedupFirst ids → dget inDeg x = some (cntEdges edges x) := by
    intro x hx
    rw [hd x]
    unfold initZero
    rw [dget_map_const, if_pos hx]
    simp
  refine ⟨hkeys, List.nodup_nil, ?_, ?_, ?_, ?_, ?_, ?_, ?_, ?_⟩
  · have hsub : ((inDeg.filter (fun p => p.2 == 0)).map Prod.fst).Sublist
        (inDeg.map Prod.fst) :=
      (List.filter_sublist inDeg).map Prod.fst
    exact hkeys_nodup.sublist hsub
  · intro x hx
    simp at hx
  · intro x hx
    simp at hx
  · intro x hx
    rcases List.mem_map.mp hx with ⟨p, hpf, hpx⟩
    have hpm := List.mem_of_mem_filter hpf
    rw [← hkeys, ← hpx]
    exact List.mem_map.mpr ⟨p, hpm, rfl⟩
  · intro x hx
    rw [hdeg x hx, poppedCnt_nil]
    simp
  · intro x hx e he ht
    exfalso
    rcases List.mem_map.mp hx with ⟨p, hpf, hpx⟩
    obtain ⟨hpm, hp0⟩ := List.mem_filter.mp hpf
    have hp0v : p.2 = 0 := by simpa using hp0
    have hxk : x ∈ dedupFirst ids := by
      rw [← hkeys, ← hpx]
      exact List.mem_map.mpr ⟨p, hpm, rfl⟩
    have hdx : dget inDeg x = some (cntEdges edges x) := hdeg x hxk
    have hdx2 : dget inDeg x = some 0 := by
      rw [← hpx, ← hp0v]
      exact dget_of_mem_of_nodup (by rw [Prod.mk.eta]; exact hpm) hkeys_nodup
    rw [hdx] at hdx2
    have hcz : (cntEdges edges x : Int) = 0 := Option.some.inj hdx2
    have hpos := cnt_pos_of_edge edges x e he ht
    omega
  · intro i hi
    simp at hi
  · intro x hx hdx
    right
    have hcz : (cntEdges edges x : Int) = 0 := by
      have := hdeg x hx
      rw [hdx] at this
      exact (Option.some.inj this).symm
    have hmem : (x, (0 : Int)) ∈ inDeg := by
      have := hdeg x hx
      rw [hdx] at this
      exact dget_mem hdx
    refine List.mem_map.mpr ⟨(x, (0 : Int)), List.mem_filter.mpr ⟨hmem, ?_⟩, rfl⟩
    simp

/- Everything the claims need from a successful sort. -/

theorem topologicalSort_ok_spec (ids : List String)
    (edges : List (String × String)) (order : List String)
    (h : topologicalSort ids edges = .ok order) :
    order.length = ids.length ∧ order.Nodup ∧
    (∀ x, x ∈ order → x ∈ dedupFirst ids) ∧
    (∀ e, e ∈ edges → e.1 ∈ dedupFirst ids ∧ e.2 ∈ dedupFirst ids) ∧
    ∃ q d, KahnInv edges (dedupFirst ids) q d order := by
  unfold topologicalSort at h
  cases hb : buildMaps edges (initZero ids) (initAdj ids) with
  | none => rw [hb] at h; simp at h
  | some pr =>
      rcases pr with ⟨inDeg, adj⟩
      rw [hb] at h
      simp only [] at h
      by_cases hlen : (kahnRun adj (ids.length + edges.length + 1)
          ((inDeg.filter (fun p => p.2 == 0)).map (fun p => p.1)) inDeg
          []).1.length ≠ ids.length
      · rw [if_pos hlen] at h
        simp at h
      · rw [if_neg hlen] at h
        have horder : (kahnRun adj (ids.length + edges.length + 1)
            ((inDeg.filter (fun p => p.2 == 0)).map (fun p => p.1)) inDeg
            []).1 = order := by
          simpa using h
        obtain ⟨hk, hak, hval, -, ha, -⟩ := buildMaps_spec edges _ _ _ _ hb
        have hkeyi : (initZero ids).map Prod.fst = dedupFirst ids :=
          keys_map_const (dedupFirst ids) 0
        have hkeya : (initAdj ids).map Prod.fst = dedupFirst ids :=
          keys_map_const (dedupFirst ids) []
        have hvalid : ∀ e, e ∈ edges →
            e.1 ∈ dedupFirst ids ∧ e.2 ∈ dedupFirst ids := by
          intro e he
          obtain ⟨h1, h2⟩ := hval e he
          rw [hkeya] at h1
          rw [hkeyi] at h2
          exact ⟨h1, h2⟩
        have hadj : ∀ x, x ∈ dedupFirst ids →
            dget adj x = some (adjListOf edges x) := by
          intro x hx
          rw [ha x]
          unfold initAdj
          rw [dget_map_const, if_pos hx]
          simp
        have hinit := kahn_init ids edges inDeg adj hb
        obtain ⟨d2, hinv⟩ := kahnRun_inv edges (dedupFirst ids) adj hvalid hadj
          (ids.length + edges.length + 1)
          ((inDeg.filter (fun p => p.2 == 0)).map (fun p => p.1)) inDeg []
          hinit
        rw [horder] at hinv
        refine ⟨?_, hinv.oNodup, hinv.oSub, hvalid, _, d2, hinv⟩
        rw [← horder]
        omega

/- A sorted order places every edge source strictly before its target,
and therefore admits no cycle among its entries. -/

theorem get_take_eq {α : Type} (l : List α) (n i : Nat)
    (h : i < (l.take n).length) (h2 : i < l.length) :
    (l.take n).get ⟨i, h⟩ = l.get ⟨i, h2⟩ := by
  simp [List.get_eq_getElem, List.getElem_take]

theorem sorted_order_edge_lt (edges : List (String × String))
    (keys : List String) (q : List String) (d : List (String × Int))
    (o : List String) (inv : KahnInv edges keys q d o)
    (e : String × String) (he : e ∈ edges) :
    ∀ j, ∀ hj : j < o.length, o.get ⟨j, hj⟩ = e.2 →
      ∃ i, ∃ hi : i < o.length, i < j ∧ o.get ⟨i, hi⟩ = e.1 := by
  intro j hj hget
  have hsrc := inv.oSorted j hj e he hget.symm
  rcases List.mem_iff_get.mp hsrc with ⟨⟨i, hi⟩, hgi⟩
  have hij : i < j := by
    have := hi
    simp [List.length_take] at this
    omega
  have hil : i < o.length := lt_trans hij hj
  refine ⟨i, hil, hij, ?_⟩
  rw [← get_take_eq o j i hi hil]
  exact hgi

theorem transGen_order_lt (edges : List (String × String))
    (keys : List String) (q : List String) (d : List (String × Int))
    (o : List String) (inv : KahnInv edges keys q d o) (a b : String)
    (htg : Relation.TransGen (fun u v => (u, v) ∈ edges) a b) :
    ∀ j, ∀ hj : j < o.length, o.get ⟨j, hj⟩ = b →
      ∃ i, ∃ hi : i < o.length, i < j ∧ o.get ⟨i, hi⟩ = a := by
  induction htg with
  | single hr => exact sorted_order_edge_lt edges keys q d o inv _ hr
  | tail htg2 hr ih =>
      intro j hj hget
      obtain ⟨i, hi, hij, hgi⟩ :=
        sorted_order_edge_lt edges keys q d o inv _ hr j hj hget
      obtain ⟨i2, hi2, hi2i, hgi2⟩ := ih i hi hgi
      exact ⟨i2, hi2, lt_trans hi2i hij, hgi2⟩

theorem topologicalSort_acyclic (ids : List String)
    (edges : List (String × String)) (order : List String)
    (h : topologicalSort ids edges = .ok order) :
    ∀ a, ¬ Relation.TransGen (fun u v => (u, v) ∈ edges) a a := by
  intro a htg
  obtain ⟨hlen, hnodup, hsub, hvalid, q, d, hinv⟩ :=
    topologicalSort_ok_spec ids edges order h
  have hperm : order.Perm (dedupFirst ids) := by
    have hsp : order.Subperm (dedupFirst ids) :=
      List.subperm_of_subset hnodup hsub
    refine List.Subperm.perm_of_length_le hsp ?_
    have := length_dedupFirst_le ids
    omega
  have hedge_in : ∃ e, e ∈ edges ∧ e.2 = a := by
    cases htg with
    | single hr => exact ⟨(a, a), hr, rfl⟩
    | tail htg2 hr => exact ⟨(_, a), hr, rfl⟩
  obtain ⟨e, he, hea⟩ := hedge_in
  have hak : a ∈ dedupFirst ids := by
    rw [← hea]
    exact (hvalid e he).2
  have hao : a ∈ order := hperm.mem_iff.mpr hak
  rcases List.mem_iff_get.mp hao with ⟨⟨j, hj⟩, hgj⟩
  obtain ⟨i, hi, hij, hgi⟩ :=
    transGen_order_lt edges (dedupFirst ids) q d order hinv a a htg j hj hgj
  have hne : (⟨i, hi⟩ : Fin order.length) ≠ ⟨j, hj⟩ := by
    intro hh
    have : i = j := by
      have := Fin.mk.injEq i hi j hj ▸ hh
      exact Fin.mk.inj_iff.mp hh
    omega
  exact (fun hh => hne ((List.Nodup.get_inj_iff hnodup).mp hh))
    (by rw [hgi, hgj])

/- Named forms of execute_node's intermediate values, definitionally
equal to the lets inside executeNode, so the dispatch loop can be
analysed by cases on the executor's outcome. -/

/-- The context after the initial running-state mark. -/
def enCtx1 (node : Node) (ctx : ExecCtx) : ExecCtx :=
  setNodeState ctx node.id "running" none none none

/-- The resolved inputs dict of the node. -/
def enInputs (node : Node) (edges : List Edge) (ctx : ExecCtx) :
    List (String × Value) :=
  getNodeInputs node.id edges (enCtx1 node ctx).nodeResults

/-- The node with its expression-bearing string properties evaluated. -/
def enNode2 (node : Node) (edges : List Edge) (ctx : ExecCtx) : Node :=
  { node with properties := node.properties.map (fun kv =>
      match kv.2 with
      | .str s =>
          if hasSubstr s "$\x7b\x7b" then
            (kv.1, evaluate
              { nodeResults := (enCtx1 node ctx).nodeResults
                jsonData := dgetD (enInputs node edges ctx) "main" (.dict [])
                vars := mkVars (enCtx1 node ctx) } (.str s))
          else kv
      | _ => kv) }

theorem executeNode_eq (exec : NodeExec) (node : Node) (edges : List Edge)
    (ctx : ExecCtx) :
    executeNode exec node edges ctx =
      match exec (enNode2 node edges ctx) (enInputs node edges ctx)
          (mkExecSnapshot (enCtx1 node ctx) (enInputs node edges ctx)) with
      | .error e => (setNodeError (enCtx1 node ctx) node.id e, .error e)
      | .ok r =>
          let result := normalizeResult r
          let ctx2 := setNodeResult (enCtx1 node ctx) node.id result
          let ctx3 := setNodeState ctx2 node.id "completed" (some result)
            (some (.dict (enInputs node edges ctx))) none
          ({ ctx3 with executionOrder := ctx3.executionOrder ++ [node.id] },
            .ok result) := rfl

theorem enNode2_id (node : Node) (edges : List Edge) (ctx : ExecCtx) :
    (enNode2 node edges ctx).id = node.id := rfl

theorem executeNode_of_ok (exec : NodeExec) (node : Node) (edges : List Edge)
    (ctx : ExecCtx) (r : Value)
    (hex : exec (enNode2 node edges ctx) (enInputs node edges ctx)
      (mkExecSnapshot (enCtx1 node ctx) (enInputs node edges ctx)) = .ok r) :
    ∃ ctx2, executeNode exec node edges ctx = (ctx2, .ok (normalizeResult r)) ∧
      ctx2.executionOrder = ctx.executionOrder ++ [node.id] ∧
      ctx2.errors = ctx.errors ∧
      (∃ st, dget ctx2.nodeStates node.id = some st ∧
        st.status = "completed") ∧
      (∀ x, x ≠ node.id → dget ctx2.nodeStates x = dget ctx.nodeStates x) := by
  rw [executeNode_eq, hex]
  refine ⟨_, rfl, rfl, rfl, ⟨_, dget_dset_self _ _ _, rfl⟩, ?_⟩
  intro x hx
  show dget (dset (dset ctx.nodeStates node.id _) node.id _) x = _
  rw [dget_dset_ne _ _ _ _ hx, dget_dset_ne _ _ _ _ hx]

theorem executeNode_of_error (exec : NodeExec) (node : Node)
    (edges : List Edge) (ctx : ExecCtx) (m : String)
    (hex : exec (enNode2 node edges ctx) (enInputs node edges ctx)
      (mkExecSnapshot (enCtx1 node ctx) (enInputs node edges ctx)) = .error m) :
    ∃ ctx2, executeNode exec node edges ctx = (ctx2, .error m) ∧
      ctx2.executionOrder = ctx.executionOrder ∧
      dget ctx2.errors node.id = some m ∧
      (∀ x, x ≠ node.id → dget ctx2.errors x = dget ctx.errors x) ∧
      (∃ st, dget ctx2.nodeStates node.id = some st ∧ st.status = "error") ∧
      (∀ x, x ≠ node.id → dget ctx2.nodeStates x = dget ctx.nodeStates x) := by
  rw [executeNode_eq, hex]
  refine ⟨_, rfl, rfl, ?_, ?_, ⟨_, dget_dset_self _ _ _, rfl⟩, ?_⟩
  · exact dget_dset_self _ _ _
  · intro x hx
    show dget (dset ctx.errors node.id _) x = _
    rw [dget_dset_ne _ _ _ _ hx]
  · intro x hx
    show dget (dset (dset ctx.nodeStates node.id _) node.id _) x = _
    rw [dget_dset_ne _ _ _ _ hx, dget_dset_ne _ _ _ _ hx]

theorem executeNode_order (exec : NodeExec) (node : Node)
    (edges : List Edge) (ctx : ExecCtx) :
    ((executeNode exec node edges ctx).1.executionOrder =
        ctx.executionOrder ++ [node.id] ∧
      ∃ r, (executeNode exec node edges ctx).2 = .ok r) ∨
    ((executeNode exec node edges ctx).1.executionOrder =
        ctx.executionOrder ∧
      ∃ m, (executeNode exec node edges ctx).2 = .error m) := by
  rw [executeNode_eq]
  cases exec (enNode2 node edges ctx) (enInputs node edges ctx)
      (mkExecSnapshot (enCtx1 node ctx) (enInputs node edges ctx)) with
  | error m => exact Or.inr ⟨rfl, m, rfl⟩
  | ok r => exact Or.inl ⟨rfl, _, rfl⟩

/- The dispatch loop realizes a prefix of the scheduled order. -/

theorem runLoop_order_prefix (exec : NodeExec) (nodes : List Node)
    (edges : List Edge) :
    ∀ order ctx, ∃ k, k ≤ order.length ∧
      (runLoop exec nodes edges order ctx).executionOrder =
        ctx.executionOrder ++ order.take k := by
  intro order
  induction order with
  | nil =>
      intro ctx
      exact ⟨0, Nat.le_refl 0, by simp [runLoop]⟩
  | cons nid rest ih =>
      intro ctx
      simp only [runLoop]
      cases hf : nodes.find? (fun n => n.id == nid) with
      | none =>
          refine ⟨0, Nat.zero_le _, ?_⟩
          simp
      | some node =>
          have hid : node.id = nid := by
            have := List.find?_some hf
            simpa using this
          simp only []
          rcases hE : executeNode exec node edges ctx with ⟨ctx2, res⟩
          rcases executeNode_order exec node edges ctx with
            ⟨ho, r, hr⟩ | ⟨ho, m, hr⟩ <;> rw [hE] at ho hr <;>
            simp only [] at ho hr
          · cases res with
            | error m2 => simp at hr
            | ok r2 =>
                simp only []
                obtain ⟨k, hk, hkeq⟩ := ih ctx2
                refine ⟨k + 1, by simp; omega, ?_⟩
                rw [hkeq, ho, hid]
                simp
          · cases res with
            | ok r2 => simp at hr
            | error m2 =>
                simp only []
                refine ⟨0, Nat.zero_le _, ?_⟩
                simp [ho]

/- Outcome of a run whose schedule succeeds up to a failing node. -/

theorem runLoop_fail_spec (exec : NodeExec) (nodes : List Node)
    (edges : List Edge) (b : String) (post : List String)
    (hfb : ∃ node, node ∈ nodes ∧ node.id = b)
    (hfail : ∀ node inputs snap, node.id = b →
      ∃ m, exec node inputs snap = .error m) :
    ∀ pre, ∀ ctx : ExecCtx,
      (∀ nid, nid ∈ pre → ∃ node, node ∈ nodes ∧ node.id = nid) →
      (∀ node inputs snap, node.id ∈ pre →
        ∃ r, exec node inputs snap = .ok r) →
      b ∉ pre →
      (runLoop exec nodes edges (pre ++ b :: post) ctx).status = "error" ∧
      (runLoop exec nodes edges (pre ++ b :: post) ctx).executionOrder =
        ctx.executionOrder ++ pre ∧
      (dget (runLoop exec nodes edges (pre ++ b :: post) ctx).errors b).isSome ∧
      (∃ st, dget (runLoop exec nodes edges
          (pre ++ b :: post) ctx).nodeStates b = some st ∧
        st.status = "error") ∧
      (∀ x, x ≠ b → x ∉ pre →
        dget (runLoop exec nodes edges (pre ++ b :: post) ctx).nodeStates x =
          dget ctx.nodeStates x) ∧
      (∀ x, x ∈ pre →
        ∃ st, dget (runLoop exec nodes edges
            (pre ++ b :: post) ctx).nodeStates x = some st ∧
          st.status = "completed") := by
  intro pre
  induction pre with
  | nil =>
      intro ctx hfind hok hbp
      obtain ⟨nodeb, hnb, hidb⟩ := hfb
      simp only [List.nil_append, runLoop]
      cases hf : nodes.find? (fun n => n.id == b) with
      | none =>
          exfalso
          have : (nodes.find? (fun n => n.id == b)).isSome := by
            rw [List.find?_isSome]
            exact ⟨nodeb, hnb, by simp [hidb]⟩
          rw [hf] at this
          simp at this
      | some node =>
          have hid : node.id = b := by
            have := List.find?_some hf
            simpa using this
          obtain ⟨m, hex⟩ := hfail (enNode2 node edges ctx)
            (enInputs node edges ctx)
            (mkExecSnapshot (enCtx1 node ctx) (enInputs node edges ctx))
            (by rw [enNode2_id, hid])
          obtain ⟨ctx2, hE, hord, herr, herrne, ⟨st, hst, hsts⟩, hnsne⟩ :=
            executeNode_of_error exec node edges ctx m hex
          simp only []
          rw [hE]
          simp only []
          rw [hid] at hst herr
          refine ⟨by trivial, by simp [hord], by rw [herr]; rfl,
            ⟨st, hst, hsts⟩, ?_, ?_⟩
          · intro x hxb _
            rw [hnsne x (by rw [hid]; exact hxb)]
          · intro x hx
            simp at hx
  | cons nid pre2 ih =>
      intro ctx hfind hok hbp
      have hb2 : b ∉ pre2 := fun hh => hbp (List.mem_cons_of_mem _ hh)
      have hbnid : nid ≠ b := fun hh =>
        hbp (hh ▸ List.mem_cons_self _ _)
      obtain ⟨noden, hnn, hidn⟩ := hfind nid (List.mem_cons_self _ _)
      simp only [List.cons_append, runLoop]
      cases hf : nodes.find? (fun n => n.id == nid) with
      | none =>
          exfalso
          have : (nodes.find? (fun n => n.id == nid)).isSome := by
            rw [List.find?_isSome]
            exact ⟨noden, hnn, by simp [hidn]⟩
          rw [hf] at this
          simp at this
      | some node =>
          have hid : node.id = nid := by
            have := List.find?_some hf
            simpa using this
          obtain ⟨r, hex⟩ := hok (enNode2 node edges ctx)
            (enInputs node edges ctx)
            (mkExecSnapshot (enCtx1 node ctx) (enInputs node edges ctx))
            (by rw [enNode2_id, hid]; exact List.mem_cons_self _ _)
          obtain ⟨ctx2, hE, hord, herrs, ⟨st, hst, hsts⟩, hfr⟩ :=
            executeNode_of_ok exec node edges ctx r hex
          simp only []
          rw [hE]
          simp only [List.append_eq]
          obtain ⟨ihs, ihord, iherr, ihb, ihfr, ihdone⟩ := ih ctx2
            (fun x hx => hfind x (List.mem_cons_of_mem _ hx))
            (fun node3 inputs snap hx =>
              hok node3 inputs snap (List.mem_cons_of_mem _ hx))
            hb2
          refine ⟨ihs, ?_, iherr, ihb, ?_, ?_⟩
          · rw [ihord, hord, hid]
            simp
          · intro x hxb hxp
            have hxnid : x ≠ nid := fun hh => hxp (hh ▸ List.mem_cons_self _ _)
            have hxp2 : x ∉ pre2 := fun hh => hxp (List.mem_cons_of_mem _ hh)
            rw [ihfr x hxb hxp2, hfr x (by rw [hid]; exact hxnid)]
          · intro x hx
            by_cases hxp : x ∈ pre2
            · exact ihdone x hxp
            · have hxnid : x = nid := by
                rcases List.mem_cons.mp hx with hh | hh
                · exact hh
                · exact absurd hh hxp
              refine ⟨st, ?_, hsts⟩
              rw [ihfr x (by rw [hxnid]; exact hbnid) hxp]
              rw [hxnid, ← hid]
              exact hst

theorem executeNode_triggerData (exec : NodeExec) (node : Node)
    (edges : List Edge) (ctx : ExecCtx) :
    (executeNode exec node edges ctx).1.triggerData = ctx.triggerData := by
  simp only [executeNode]
  split <;> simp [setNodeError, setNodeState, setNodeResult]

theorem runLoop_triggerData (exec : NodeExec) (nodes : List Node)
    (edges : List Edge) (order : List String) (ctx : ExecCtx) :
    (runLoop exec nodes edges order ctx).triggerData = ctx.triggerData := by
  induction order generalizing ctx with
  | nil => rfl
  | cons nid rest ih =>
      unfold runLoop
      cases hf : nodes.find? (fun n => n.id == nid) with
      | none => rfl
      | some node =>
          simp only []
          have htd := executeNode_triggerData exec node edges ctx
          rcases hx : executeNode exec node edges ctx with ⟨ctx2, res⟩
          rw [hx] at htd
          cases res with
          | ok v =>
              show (runLoop exec nodes edges rest ctx2).triggerData =
                ctx.triggerData
              rw [ih ctx2]
              exact htd
          | error e =>
              show ctx2.triggerData = ctx.triggerData
              exact htd

theorem executeWorkflow_triggerData (exec : NodeExec) (wf ex : String)
    (nodes : List Node) (edges : List Edge) (td : Option Value)
    (creds : Option (List (String × Value))) :
    (executeWorkflow exec wf ex nodes edges td creds).triggerData =
      (match td with
       | some v => if v.truthy then v else defaultTriggerData
       | none => defaultTriggerData) := by
  unfold executeWorkflow
  cases htopo : topologicalSort (nodes.map (fun n => n.id))
      (edges.map (fun e => (e.source, e.target))) with
  | error e => rfl
  | ok order => simp only [runLoop_triggerData]

/-- C10: a run started with an absent or falsy trigger payload (including
the empty mapping) stores the canned default structure (message and text
"Hello, how can I help you today?", user "anonymous") as the context's
trigger data; a truthy (non-empty) payload is stored unchanged. -/
theorem c10_default_trigger_payload (exec : NodeExec) (wf ex : String)
    (nodes : List Node) (edges : List Edge) (td : Option Value)
    (creds : Option (List (String × Value))) :
    defaultTriggerData =
      .dict [("message", .str "Hello, how can I help you today?"),
             ("text", .str "Hello, how can I help you today?"),
             ("user", .str "anonymous"),
             ("channel", .str ""),
             ("timestamp", .str "")] ∧
    ((td = none ∨ td = some (.dict []) ∨ (∃ v, td = some v ∧ v.truthy = false)) →
      (executeWorkflow exec wf ex nodes edges td creds).triggerData =
        defaultTriggerData) ∧
    (∀ v, td = some v → v.truthy = true →
      (executeWorkflow exec wf ex nodes edges td creds).triggerData = v) := by
  refine ⟨rfl, ?_, ?_⟩
  · intro h
    rw [executeWorkflow_triggerData]
    rcases h with h | h | ⟨v, hv, hf⟩
    · rw [h]
    · rw [h]; rfl
    · rw [hv]; simp [hf]
  · intro v hv ht
    rw [executeWorkflow_triggerData, hv]
    simp [ht]

theorem c10_default_trigger_payload_witness :
    (executeWorkflow (fun _ _ _ => .ok (.dict [])) "w" "e" [] []
      (some (.dict [])) none).triggerData = defaultTriggerData ∧
    (executeWorkflow (fun _ _ _ => .ok (.dict [])) "w" "e" [] []
      (some (.dict [("x", .int 1)])) none).triggerData =
      .dict [("x", .int 1)] :=
  ⟨(c10_default_trigger_payload _ "w" "e" [] [] _ none).2.1 (Or.inr (Or.inl rfl)),
   (c10_default_trigger_payload _ "w" "e" [] [] _ none).2.2 _ rfl rfl⟩

/-- C4: the `$\x7b\x7b $json.<nodeId>.<path> \x7d\x7d` form. The spec (and
the evaluator's own docstring and its dead `$json.<nodeId>` branch at
expression_evaluator.py lines 84-90) prescribe a lookup of
node_results[nodeId] with `main` unwrapping — what _get_node_output
computes, here "hi". The code instead always takes the first branch of
_evaluate_expression (line 77), treating the whole text as a path into the
current input, and yields None. -/
theorem c4_json_node_reference_dead_branch :
    evaluateExpression ctxNodeRef evalFuel "$json.node1.greeting" =
      Value.null ∧
    getNodeOutput ctxNodeRef "node1" (some "greeting") = Value.str "hi" :=
  ⟨rfl, rfl⟩

/-- C5, counterexample to the claim as stated: evaluating
`$\x7b\x7b json.missing \x7d\x7d` does not return an empty or none result —
it returns the four-character string "None" (the str() of Python None
substituted into the template), which is truthy and differs from both the
empty string and null. -/
theorem c5_missing_evaluates_to_None_string :
    evaluate ctxRoundTrip (.str "$\x7b\x7b json.missing \x7d\x7d") =
      .str "None" ∧
    (Value.str "None").truthy = true ∧
    Value.str "None" ≠ Value.str "" ∧
    Value.str "None" ≠ Value.null := by
  refine ⟨rfl, rfl, ?_, ?_⟩
  · intro h
    exact absurd (Value.str.inj h) (by decide)
  · intro h
    exact Value.noConfusion h

/-- C5 as amended: evaluating `$\x7b\x7b json.user.name \x7d\x7d` against
json = \x7buser: \x7bname: "Ada"\x7d\x7d\x7d returns "Ada"; evaluating
`$\x7b\x7b json.missing \x7d\x7d` returns the literal string "None"
(no exception is raised — the evaluator is a total function). -/
theorem c5_expression_round_trip_amended :
    evaluate ctxRoundTrip (.str "$\x7b\x7b json.user.name \x7d\x7d") =
      .str "Ada" ∧
    evaluate ctxRoundTrip (.str "$\x7b\x7b json.missing \x7d\x7d") =
      .str "None" :=
  ⟨rfl, rfl⟩

/-- C6, counterexample to the claim as stated: with input `\x7b\x7d` and
configured content "", the readme-viewer's content is the JSON
stringification "\x7b\x7d" of the empty input — not the literal "work"
(the stringification step precedes the configured/default fallbacks and
produces a truthy string). -/
theorem c6_empty_input_content_not_work :
    executeReadmeViewer [("content", .str "")] [("main", .dict [])] "" =
      .ok (.dict [("main", .dict
        [("title", .str "Content Viewer"),
         ("content", .str "\x7b\x7d"),
         ("timestamp", .str ""),
         ("type", .str "readme_viewer"),
         ("formatted", .bool true)])]) ∧
    ("\x7b\x7d" : String) ≠ "work" :=
  ⟨rfl, by decide⟩

/-- C6 as amended: given input `\x7b\x7d` and configured content "", the
returned content equals "\x7b\x7d" (the JSON stringification of the empty
input); given input `\x7btext: "hi"\x7d`, the returned content equals "hi"
for every value of the configured content property. -/
theorem c6_readme_viewer_fallback_amended (configured : Value) (now : String) :
    executeReadmeViewer [("content", .str "")] [("main", .dict [])] now =
      .ok (.dict [("main", .dict
        [("title", .str "Content Viewer"),
         ("content", .str "\x7b\x7d"),
         ("timestamp", .str now),
         ("type", .str "readme_viewer"),
         ("formatted", .bool true)])]) ∧
    executeReadmeViewer [("content", configured)]
        [("main", .dict [("text", .str "hi")])] now =
      .ok (.dict [("main", .dict
        [("title", .str "Content Viewer"),
         ("content", .str "hi"),
         ("timestamp", .str now),
         ("type", .str "readme_viewer"),
         ("formatted", .bool true)])]) :=
  ⟨rfl, rfl⟩

/-- C7: two edges into a node's `main` handle with mapping payloads merge
by shallow dict update in edge order (so the payloads `\x7ba:1\x7d` and
`\x7ba:2,b:3\x7d` merge to `\x7ba:2,b:3\x7d`, the later edge winning the
collision on `a`), and a single edge into `main` passes its payload
through unchanged. -/
theorem c7_input_merge_determinism :
    (∀ d1 d2 : List (String × Value),
      dget (getNodeInputs "N"
          [{ source := "X", target := "N" }, { source := "Y", target := "N" }]
          [("X", .dict [("main", .dict d1)]), ("Y", .dict [("main", .dict d2)])])
        "main" = some (.dict (dictUpdate (dictUpdate [] d1) d2))) ∧
    (dget (getNodeInputs "N"
        [{ source := "X", target := "N" }, { source := "Y", target := "N" }]
        [("X", .dict [("main", .dict [("a", .int 1)])]),
         ("Y", .dict [("main", .dict [("a", .int 2), ("b", .int 3)])])])
      "main" = some (.dict [("a", .int 2), ("b", .int 3)])) ∧
    (∀ p : Value,
      dget (getNodeInputs "N" [{ source := "X", target := "N" }]
          [("X", .dict [("main", p)])]) "main" = some p) :=
  ⟨fun _ _ => rfl, rfl, fun _ => rfl⟩

/-- C8: the filter node with field "status", operator "equals", value
"active" keeps the input `\x7bstatus: "active"\x7d` (returning it under
`main`) and filters `\x7bstatus: "inactive"\x7d` to `main: null`; and the
greaterThan/lessThan comparisons return false whenever either side fails
float() conversion, instead of raising. -/
theorem c8_filter_semantics :
    executeFilter filterProps [("main", .dict [("status", .str "active")])] =
      .ok (.dict [("main", .dict [("status", .str "active")])]) ∧
    executeFilter filterProps [("main", .dict [("status", .str "inactive")])] =
      .ok (.dict [("main", .null)]) ∧
    (∀ fv ev : Value, pyFloat? fv = none ∨ pyFloat? ev = none →
      evaluateFilter fv (.str "greaterThan") ev = false ∧
      evaluateFilter fv (.str "lessThan") ev = false) := by
  refine ⟨rfl, rfl, ?_⟩
  intro fv ev h
  have egt : evaluateFilter fv (.str "greaterThan") ev =
      (match pyFloat? fv, pyFloat? ev with
       | some a, some b => decide (a > b)
       | _, _ => false) := rfl
  have elt : evaluateFilter fv (.str "lessThan") ev =
      (match pyFloat? fv, pyFloat? ev with
       | some a, some b => decide (a < b)
       | _, _ => false) := rfl
  rcases h with h | h
  · exact ⟨by rw [egt, h], by rw [elt, h]⟩
  · constructor
    · rw [egt, h]
      cases pyFloat? fv <;> rfl
    · rw [elt, h]
      cases pyFloat? fv <;> rfl

theorem c8_filter_semantics_witness :
    pyFloat? (Value.str "abc") = none ∧
    evaluateFilter (.str "abc") (.str "greaterThan") (.int 1) = false ∧
    evaluateFilter (.int 1) (.str "lessThan") (.str "abc") = false :=
  ⟨rfl,
   (c8_filter_semantics.2.2 (.str "abc") (.int 1) (Or.inl rfl)).1,
   (c8_filter_semantics.2.2 (.int 1) (.str "abc") (Or.inr rfl)).2⟩

/-- C9: whenever _evaluate_javascript reaches its division branch (the
substituted expression contains `/` and none of `+`, `-`, `*`) and the
second part — the divisor — evaluates to a zero-valued number, the result
is 0 rather than a raised ZeroDivisionError. -/
theorem c9_division_by_zero_yields_zero (ctx : EvalContext) (fuel : Nat)
    (e v0 v1 : String) (rest : List String)
    (hplus : strContains (substituteJsonRefs ctx e) '+' = false)
    (hminus : strContains (substituteJsonRefs ctx e) '-' = false)
    (hstar : strContains (substituteJsonRefs ctx e) '*' = false)
    (hslash : strContains (substituteJsonRefs ctx e) '/' = true)
    (hsplit : pySplitChar (substituteJsonRefs ctx e) '/' = v0 :: v1 :: rest)
    (hzero : pyFloat?
      (exprStep ctx (evaluateJavascript ctx fuel) (pyStrip v1)) = some 0) :
    evaluateJavascript ctx (fuel + 1) e = Value.int 0 := by
  simp only [evaluateJavascript, hplus, hminus, hstar, hslash,
    Bool.false_eq_true, if_false, if_true, hsplit, List.map_cons]
  rw [hzero]
  simp

theorem c9_division_by_zero_witness :
    evaluateJavascript ctxVarsZero 1000 "1/$vars.count" = Value.int 0 ∧
    pyFloat? (exprStep ctxVarsZero (evaluateJavascript ctxVarsZero 999)
      (pyStrip "$vars.count")) = some 0 :=
  ⟨c9_division_by_zero_yields_zero ctxVarsZero 999 "1/$vars.count"
      "1" "$vars.count" [] rfl rfl rfl rfl rfl rfl,
   rfl⟩

/- ===== C1, C2, C3: scheduler-level claims ===== -/

/-- execute_workflow after a successful sort is the dispatch loop run
from the fresh context. -/
theorem executeWorkflow_runLoop (exec : NodeExec) (wid eid : String)
    (nodes : List Node) (edges : List Edge) (trig : Option Value)
    (creds : Option (List (String × Value))) (order : List String)
    (hs : topologicalSort (nodes.map (fun n => n.id))
      (edges.map (fun e2 => (e2.source, e2.target))) = .ok order) :
    ∃ ctx0 : ExecCtx, executeWorkflow exec wid eid nodes edges trig creds =
      runLoop exec nodes edges order ctx0 ∧
      ctx0.executionOrder = [] ∧ ctx0.nodeStates = [] ∧ ctx0.errors = [] := by
  simp only [executeWorkflow]
  rw [hs]
  exact ⟨_, rfl, rfl, rfl, rfl⟩

/-- C1: for an acyclic workflow graph whose edges reference only ids of
listed nodes, every occurrence of an edge's target in the realized
execution order of a full run is preceded, strictly earlier in that
order, by an occurrence of the edge's source. -/
theorem c1_topological_soundness (exec : NodeExec) (wid eid : String)
    (nodes : List Node) (edges : List Edge) (trig : Option Value)
    (creds : Option (List (String × Value)))
    (_hacyc : ∀ a, ¬ Relation.TransGen
      (fun u v => (u, v) ∈ edges.map (fun e2 => (e2.source, e2.target))) a a)
    (_hvalid : ∀ e2, e2 ∈ edges → e2.source ∈ nodes.map Node.id ∧
      e2.target ∈ nodes.map Node.id)
    (e : Edge) (he : e ∈ edges) (j : Nat)
    (ht : (executeWorkflow exec wid eid nodes edges
      trig creds).executionOrder.get? j = some e.target) :
    ∃ i, i < j ∧
      (executeWorkflow exec wid eid nodes edges
        trig creds).executionOrder.get? i = some e.source := by
  cases hs : topologicalSort (nodes.map (fun n => n.id))
      (edges.map (fun e2 => (e2.source, e2.target))) with
  | error msg =>
      exfalso
      have hres : (executeWorkflow exec wid eid nodes edges
          trig creds).executionOrder = [] := by
        simp only [executeWorkflow]
        rw [hs]
      rw [hres] at ht
      simp at ht
  | ok order =>
      obtain ⟨ctx0, hEW, hc0, -, -⟩ :=
        executeWorkflow_runLoop exec wid eid nodes edges trig creds order hs
      obtain ⟨k, hk, hkeq⟩ := runLoop_order_prefix exec nodes edges order ctx0
      rw [hEW, hkeq, hc0, List.nil_append] at ht ⊢
      obtain ⟨-, -, -, -, q, d, hinv⟩ := topologicalSort_ok_spec _ _ _ hs
      rw [List.get?_eq_some] at ht
      obtain ⟨hj, hgj⟩ := ht
      have hjo : j < order.length := by
        have h2 := hj
        simp [List.length_take] at h2
        omega
      have hgj2 : order.get ⟨j, hjo⟩ = e.target := by
        rw [← get_take_eq order k j hj hjo]
        exact hgj
      obtain ⟨i, hio, hij, hgi⟩ := sorted_order_edge_lt
        (edges.map (fun e2 => (e2.source, e2.target)))
        (dedupFirst (nodes.map (fun n => n.id))) q d order hinv
        (e.source, e.target) (List.mem_map_of_mem _ he) j hjo hgj2
      have hitk : i < (order.take k).length := lt_trans hij hj
      refine ⟨i, hij, ?_⟩
      rw [List.get?_eq_some]
      refine ⟨hitk, ?_⟩
      rw [get_take_eq order k i hitk hio]
      exact hgi

/-- C2: a workflow graph containing a cycle fails before any node is
dispatched: the run returns an error-status context with no node states
and an empty execution order, and the returned context does not depend on
the node executor at all. -/
theorem c2_cycle_detection (exec : NodeExec) (wid eid : String)
    (nodes : List Node) (edges : List Edge) (trig : Option Value)
    (creds : Option (List (String × Value))) (a : String)
    (hcyc : Relation.TransGen
      (fun u v => (u, v) ∈ edges.map (fun e2 => (e2.source, e2.target))) a a) :
    (executeWorkflow exec wid eid nodes edges trig creds).status = "error" ∧
    (executeWorkflow exec wid eid nodes edges trig creds).nodeStates = [] ∧
    (executeWorkflow exec wid eid nodes edges trig creds).executionOrder = [] ∧
    ∀ exec2 : NodeExec, executeWorkflow exec2 wid eid nodes edges trig creds =
      executeWorkflow exec wid eid nodes edges trig creds := by
  cases hs : topologicalSort (nodes.map (fun n => n.id))
      (edges.map (fun e2 => (e2.source, e2.target))) with
  | ok order => exact absurd (topologicalSort_acyclic _ _ _ hs a) (by simpa using hcyc)
  | error msg =>
      refine ⟨?_, ?_, ?_, ?_⟩
      · simp only [executeWorkflow]
        rw [hs]
      · simp only [executeWorkflow]
        rw [hs]
      · simp only [executeWorkflow]
        rw [hs]
      · intro exec2
        simp only [executeWorkflow]
        rw [hs]

/-- C3: if the schedule succeeds, every node before b in the schedule
executes successfully and b's executor raises, then the run returns (not
raises) an error-status context in which b has an Errors entry and an
error node state, every node dispatched before b has a completed state,
the realized order is exactly the prefix before b, and no node scheduled
after b appears in it. -/
theorem c3_error_isolation (exec : NodeExec) (wid eid : String)
    (nodes : List Node) (edges : List Edge) (trig : Option Value)
    (creds : Option (List (String × Value)))
    (pre : List String) (b : String) (post : List String)
    (hsort : topologicalSort (nodes.map (fun n => n.id))
      (edges.map (fun e2 => (e2.source, e2.target))) = .ok (pre ++ b :: post))
    (hpre : ∀ node inputs snap, node.id ∈ pre →
      ∃ r, exec node inputs snap = .ok r)
    (hfail : ∀ node inputs snap, node.id = b →
      ∃ m, exec node inputs snap = .error m) :
    (executeWorkflow exec wid eid nodes edges trig creds).status = "error" ∧
    (dget (executeWorkflow exec wid eid nodes edges
      trig creds).errors b).isSome ∧
    (∃ st, dget (executeWorkflow exec wid eid nodes edges
      trig creds).nodeStates b = some st ∧ st.status = "error") ∧
    (∀ x, x ∈ pre → ∃ st, dget (executeWorkflow exec wid eid nodes edges
      trig creds).nodeStates x = some st ∧ st.status = "completed") ∧
    (executeWorkflow exec wid eid nodes edges
      trig creds).executionOrder = pre ∧
    (∀ x, x ∈ post → x ∉ (executeWorkflow exec wid eid nodes edges
      trig creds).executionOrder) := by
  obtain ⟨-, hnodup, hsub, -, -⟩ := topologicalSort_ok_spec _ _ _ hsort
  rw [List.nodup_append] at hnodup
  obtain ⟨hpnd, hbpnd, hdisj⟩ := hnodup
  have hbp : b ∉ pre := fun hh => hdisj hh (List.mem_cons_self _ _)
  have hfind : ∀ nid, nid ∈ pre ++ b :: post →
      ∃ node, node ∈ nodes ∧ node.id = nid := by
    intro nid hx
    have h1 : nid ∈ dedupFirst (nodes.map (fun n => n.id)) := hsub nid hx
    have h2 : nid ∈ nodes.map (fun n => n.id) := (mem_dedupFirst _ _).mp h1
    rcases List.mem_map.mp h2 with ⟨node, hn, hid⟩
    exact ⟨node, hn, hid⟩
  have hfb : ∃ node, node ∈ nodes ∧ node.id = b :=
    hfind b (List.mem_append_right _ (List.mem_cons_self _ _))
  obtain ⟨ctx0, hEW, hc0, -, -⟩ := executeWorkflow_runLoop exec wid eid nodes
    edges trig creds (pre ++ b :: post) hsort
  obtain ⟨h1, h2, h3, h4, -, h6⟩ := runLoop_fail_spec exec nodes edges b post
    hfb hfail pre ctx0 (fun nid hx => hfind nid (List.mem_append_left _ hx))
    hpre hbp
  rw [hEW]
  have hord : (runLoop exec nodes edges (pre ++ b :: post)
      ctx0).executionOrder = pre := by
    rw [h2, hc0]
    simp
  refine ⟨h1, h3, h4, h6, hord, ?_⟩
  intro x hx
  rw [hord]
  exact fun hxp => hdisj hxp (List.mem_cons_of_mem _ hx)

/- Concrete fixtures for the scheduler-claim witnesses. -/

/-- An executor that always succeeds with a plain string. -/
def wExecOk : NodeExec := fun _ _ _ => .ok (.str "ok")

/-- An executor that raises on the node with id B and succeeds elsewhere. -/
def wExecFailB : NodeExec := fun n _ _ =>
  if n.id == "B" then .error "boom"
  else .ok (.dict [("main", .dict [("v", .int 1)])])

def wNodesAB : List Node := [⟨"A", "t", []⟩, ⟨"B", "t", []⟩]

def wNodesABC : List Node := [⟨"A", "t", []⟩, ⟨"B", "t", []⟩, ⟨"C", "t", []⟩]

def wEdgesAB : List Edge := [⟨"A", "B", none, none⟩]

def wEdgesABBA : List Edge := [⟨"A", "B", none, none⟩, ⟨"B", "A", none, none⟩]

def wEdgesABC : List Edge := [⟨"A", "B", none, none⟩, ⟨"B", "C", none, none⟩]

theorem c1_topological_soundness_witness :
    ∃ i, i < 1 ∧ (executeWorkflow wExecOk "w" "e" wNodesAB wEdgesAB
      none none).executionOrder.get? i = some "A" :=
  c1_topological_soundness wExecOk "w" "e" wNodesAB wEdgesAB none none
    (by
      intro a htg
      obtain ⟨b1, hstep1, -⟩ := Relation.TransGen.head'_iff.mp htg
      obtain ⟨b2, -, hstep2⟩ := Relation.TransGen.tail'_iff.mp htg
      simp [wEdgesAB] at hstep1 hstep2
      rw [hstep1.1] at hstep2
      exact absurd hstep2.2 (by decide))
    (by
      intro e2 he2
      have h2 : e2 = ⟨"A", "B", none, none⟩ := by
        simpa [wEdgesAB] using he2
      subst h2
      exact ⟨by decide, by decide⟩)
    ⟨"A", "B", none, none⟩ (by simp [wEdgesAB]) 1 rfl

theorem c2_cycle_detection_witness :
    (executeWorkflow wExecOk "w" "e" wNodesAB wEdgesABBA
      none none).status = "error" ∧
    (executeWorkflow wExecOk "w" "e" wNodesAB wEdgesABBA
      none none).nodeStates = [] ∧
    (executeWorkflow wExecOk "w" "e" wNodesAB wEdgesABBA
      none none).executionOrder = [] ∧
    ∀ exec2 : NodeExec, executeWorkflow exec2 "w" "e" wNodesAB wEdgesABBA
      none none = executeWorkflow wExecOk "w" "e" wNodesAB wEdgesABBA
      none none :=
  c2_cycle_detection wExecOk "w" "e" wNodesAB wEdgesABBA none none "A"
    (@Relation.TransGen.head String
      (fun u v => (u, v) ∈ wEdgesABBA.map (fun e2 => (e2.source, e2.target)))
      "A" "B" "A" (by decide)
      (@Relation.TransGen.single String
        (fun u v => (u, v) ∈ wEdgesABBA.map (fun e2 => (e2.source, e2.target)))
        "B" "A" (by decide)))

theorem c3_error_isolation_witness :
    (executeWorkflow wExecFailB "w" "e" wNodesABC wEdgesABC
      none none).status = "error" ∧
    (dget (executeWorkflow wExecFailB "w" "e" wNodesABC wEdgesABC
      none none).errors "B").isSome ∧
    (∃ st, dget (executeWorkflow wExecFailB "w" "e" wNodesABC wEdgesABC
      none none).nodeStates "B" = some st ∧ st.status = "error") ∧
    (∀ x, x ∈ ["A"] → ∃ st, dget (executeWorkflow wExecFailB "w" "e"
      wNodesABC wEdgesABC none none).nodeStates x = some st ∧
      st.status = "completed") ∧
    (executeWorkflow wExecFailB "w" "e" wNodesABC wEdgesABC
      none none).executionOrder = ["A"] ∧
    (∀ x, x ∈ ["C"] → x ∉ (executeWorkflow wExecFailB "w" "e" wNodesABC
      wEdgesABC none none).executionOrder) :=
  c3_error_isolation wExecFailB "w" "e" wNodesABC wEdgesABC none none
    ["A"] "B" ["C"] rfl
    (by
      intro node inputs snap hx
      have hid : node.id = "A" := by simpa using hx
      refine ⟨.dict [("main", .dict [("v", .int 1)])], ?_⟩
      simp only [wExecFailB]
      rw [hid, if_neg (by decide)])
    (by
      intro node inputs snap hid
      refine ⟨"boom", ?_⟩
      simp only [wExecFailB]
      rw [hid, if_pos (by decide)])

end Workflow
